import Mathlib

/-!
Shallow embedding of the exam timetable generator
(backend/app/core/{types,utils,scheduler,exceptions}.py) and proofs of the
spec claims about it.  Machine integers are modelled as `Nat`/`Int`; Python
dicts keyed by subject are modelled as insertion-ordered association lists;
Python sets of strings are modelled as deduplicated lists (membership and
cardinality are evaluation-order independent for every use the code makes of
them); the process-global `random` module is modelled as an explicit PRNG
state threaded through the search, abstracted over the concrete generator.
-/

namespace Timetable

/-- Single quote character, used inside validation messages. -/
def sq : String := String.singleton (Char.ofNat 39)

/-- types.py: StudentGroup - a group of students with common subjects. -/
structure StudentGroup where
  name : String
  subjects : List String
  size : Nat
deriving DecidableEq

/-- types.py: TimetableConfig. -/
structure TimetableConfig where
  days : Nat
  slots_per_day : Nat
  subjects : List String
  groups : List StudentGroup
  random_seed : Option Int
deriving DecidableEq

/-- types.py: TimetableConfig.total_slots. -/
def TimetableConfig.total_slots (c : TimetableConfig) : Nat :=
  c.days * c.slots_per_day

/-- types.py: ExamSlot. -/
structure ExamSlot where
  day : Nat
  slot : Nat
  subject : String
deriving DecidableEq

/-- types.py: TimetableResult. -/
structure TimetableResult where
  assignments : List ExamSlot
  config : TimetableConfig
deriving DecidableEq

/-- types.py: Hall. -/
structure Hall where
  name : String
  capacity : Nat
deriving DecidableEq

/-- types.py: HallConfig. -/
structure HallConfig where
  halls : List Hall
  per_subject_limit : Nat
deriving DecidableEq

/-- types.py: HallConfig.total_capacity. -/
def HallConfig.total_capacity (hc : HallConfig) : Nat :=
  (hc.halls.map (·.capacity)).sum

/-- types.py: HallAssignment - students of several subjects seated in one
hall for one (day, slot). -/
structure HallAssignment where
  hall_name : String
  day : Nat
  slot : Nat
  allocations : List (String × Nat)
deriving DecidableEq

/-- Structured diagnostics attached to scheduler errors
(exceptions.py keeps them as a free-form dict; the code stores exactly
these two shapes). -/
inductive Diag where
  | validationErrors (errors : List String)
  | searchDiag (backtrack_attempts : Nat) (subjects : Nat)
      (conflicts : List (String × List String))
deriving DecidableEq

/-- exceptions.py as a closed tagged variant: the three exception classes the
engine actually raises, with their message and diagnostics. -/
inductive SchedError where
  | noSolutionError (msg : String) (d : Diag)
  | insufficientSlotsError (msg : String)
      (subjects_count total_slots deficit : Nat)
  | insufficientHallCapacityError (msg : String)
      (remaining_students total_capacity : Nat)
      (subjects : List (String × Nat))
deriving DecidableEq

/-- The global `random` module: a seed operation and a shuffle, abstracted
over the generator state.  `shuffleFn` returns the reordered list and the
advanced state. -/
structure PRNG (σ : Type) where
  seedFn : Int → σ
  shuffleFn : σ → List (Nat × Nat) → List (Nat × Nat) × σ

/-- utils.py: build_conflict_graph, as the adjacency function of one subject:
all other subjects sharing some group with it (a Python set; here a
deduplicated list). -/
def build_conflict_graph (groups : List StudentGroup) (s : String) :
    List String :=
  (((groups.filter (fun g => g.subjects.contains s)).flatMap
      (·.subjects)).filter (fun t => !(t == s))).dedup

/-- utils.py: count_conflicts - the degree of a subject in the conflict
graph. -/
def count_conflicts (subject : String) (conflicts : String → List String) :
    Nat :=
  (conflicts subject).length

/-- utils.py: validate_config - returns (is_valid, errors). -/
def validate_config (cfg : TimetableConfig) : Bool × List String :=
  let e1 : List String :=
    if cfg.subjects.length > cfg.total_slots then
      ["Insufficient slots: " ++ toString cfg.subjects.length ++
        " subjects need " ++ toString cfg.total_slots ++ " slots"]
    else []
  let all_group_subjects := (cfg.groups.flatMap (·.subjects)).dedup
  let e2 := (cfg.subjects.filter
      (fun s => !(all_group_subjects.contains s))).map
    (fun s => "Subject " ++ sq ++ s ++ sq ++ " not assigned to any group")
  let e3 := (all_group_subjects.filter
      (fun s => !(cfg.subjects.contains s))).map
    (fun s => "Subject " ++ sq ++ s ++ sq ++
      " in groups but not in subject list")
  let errors := e1 ++ e2 ++ e3
  (errors.isEmpty, errors)

/-- utils.py: get_subjects_in_slot - the subjects that would share (day,
slot) if `subject` were put there (the `groups` parameter is unused in the
source as well). -/
def get_subjects_in_slot (_groups : List StudentGroup) (subject : String)
    (day slot : Nat) (assignment : List (String × Nat × Nat)) :
    List String :=
  subject ::
    (assignment.filter
      (fun e => e.2.1 == day && e.2.2 == slot)).map (·.1)

/-- utils.py: check_group_conflicts - true when some group has more than one
of its subjects in the slot. -/
def check_group_conflicts (groups : List StudentGroup)
    (subjects_in_slot : List String) : Bool :=
  groups.any (fun g =>
    decide (1 < (g.subjects.filter
      (fun s => subjects_in_slot.contains s)).length))

/-- Stable insertion into a descending-by-key sorted list: the new element
goes before the first element whose key is not larger. -/
def insertDescBy (key : α → Nat) (x : α) : List α → List α
  | [] => [x]
  | y :: ys =>
    if key y ≤ key x then x :: y :: ys else y :: insertDescBy key x ys

/-- Stable sort by descending key: Python `sorted(..., key=key,
reverse=True)` (stable; ties keep input order). -/
def stableSortDescBy (key : α → Nat) : List α → List α
  | [] => []
  | x :: xs => insertDescBy key x (stableSortDescBy key xs)

/-- scheduler.py generate_timetable lines 78-83: the static variable order -
subjects sorted by descending conflict degree, ties keeping input order. -/
def subjectOrder (cfg : TimetableConfig) : List String :=
  stableSortDescBy
    (fun s => count_conflicts s (build_conflict_graph cfg.groups))
    cfg.subjects

/-- scheduler.py generate_timetable lines 70-74: every (day, slot) cell. -/
def all_slots (cfg : TimetableConfig) : List (Nat × Nat) :=
  (List.range cfg.days).flatMap
    (fun day => (List.range cfg.slots_per_day).map (fun slot => (day, slot)))

/-- scheduler.py: TimetableScheduler._is_consistent - the candidate cell must
be unoccupied and must not put two subjects of one group together. -/
def is_consistent (groups : List StudentGroup)
    (assignment : List (String × Nat × Nat)) (subject : String)
    (day slot : Nat) : Bool :=
  if assignment.any (fun e => e.2.1 == day && e.2.2 == slot) then false
  else
    !(check_group_conflicts groups
      (get_subjects_in_slot groups subject day slot assignment))

/-- scheduler.py: TimetableScheduler._forward_check - remove the chosen cell
from every unassigned conflicting subject's domain; fail if a domain
empties.  Domains are a total map from subject to remaining cells. -/
def forward_check (assignment : List (String × Nat × Nat)) (day slot : Nat) :
    List String → (String → List (Nat × Nat)) →
      Option (String → List (Nat × Nat))
  | [], doms => some doms
  | c :: cs, doms =>
    if assignment.any (fun e => e.1 == c) then
      forward_check assignment day slot cs doms
    else
      let nd := (doms c).filter (fun p => !(p.1 == day && p.2 == slot))
      if nd.isEmpty then none
      else
        forward_check assignment day slot cs
          (fun t => if t == c then nd else doms t)

/-- scheduler.py _backtrack lines 130-145: try each shuffled candidate cell
in order; `recurse` is the search over the remaining subjects.  Threads the
PRNG state and the backtrack counter; on a failed branch the advanced state
is kept, as with Python's process-global generator. -/
def tryCands (groups : List StudentGroup) (conflicts : String → List String)
    (subject : String)
    (recurse : σ → Nat → List (String × Nat × Nat) →
      (String → List (Nat × Nat)) →
      Option (List (String × Nat × Nat)) × σ × Nat) :
    List (Nat × Nat) → σ → Nat → List (String × Nat × Nat) →
      (String → List (Nat × Nat)) →
      Option (List (String × Nat × Nat)) × σ × Nat
  | [], rs, cnt, _asg, _doms => (none, rs, cnt)
  | (day, slot) :: cs, rs, cnt, asg, doms =>
    if is_consistent groups asg subject day slot then
      let asg2 := asg ++ [(subject, (day, slot))]
      match forward_check asg2 day slot (conflicts subject) doms with
      | some doms2 =>
        match recurse rs cnt asg2 doms2 with
        | (some finalAsg, rs2, cnt2) => (some finalAsg, rs2, cnt2)
        | (none, rs2, cnt2) =>
          tryCands groups conflicts subject recurse cs rs2 cnt2 asg doms
      | none => tryCands groups conflicts subject recurse cs rs cnt asg doms
    else tryCands groups conflicts subject recurse cs rs cnt asg doms

/-- scheduler.py: TimetableScheduler._backtrack - recursive backtracking over
the remaining subjects; increments the attempt counter at each node, shuffles
the current subject's domain, and delegates the value loop to `tryCands`. -/
def backtrack (P : PRNG σ) (groups : List StudentGroup)
    (conflicts : String → List String) :
    List String → σ → Nat → List (String × Nat × Nat) →
      (String → List (Nat × Nat)) →
      Option (List (String × Nat × Nat)) × σ × Nat
  | [], rs, cnt, asg, _doms => (some asg, rs, cnt + 1)
  | s :: rest, rs, cnt, asg, doms =>
    let sh := P.shuffleFn rs (doms s)
    tryCands groups conflicts s
      (fun rs2 cnt2 asg2 doms2 =>
        backtrack P groups conflicts rest rs2 cnt2 asg2 doms2)
      sh.1 sh.2 (cnt + 1) asg doms

/-- scheduler.py: TimetableScheduler.generate_timetable (together with
__init__): seed the generator if a seed is configured, validate, check slot
sufficiency, then search.  Returns the result or error, with the final PRNG
state. -/
def generate_timetable (P : PRNG σ) (s0 : σ) (cfg : TimetableConfig) :
    Except SchedError TimetableResult × σ :=
  let rs0 := match cfg.random_seed with
    | some k => P.seedFn k
    | none => s0
  let v := validate_config cfg
  if !v.1 then
    (.error (.noSolutionError "Invalid configuration"
      (Diag.validationErrors v.2)), rs0)
  else if cfg.subjects.length > cfg.total_slots then
    (.error (.insufficientSlotsError
      ("Cannot fit " ++ toString cfg.subjects.length ++ " subjects into " ++
        toString cfg.total_slots ++ " slots")
      cfg.subjects.length cfg.total_slots
      (cfg.subjects.length - cfg.total_slots)), rs0)
  else
    let conflicts := build_conflict_graph cfg.groups
    match backtrack P cfg.groups conflicts (subjectOrder cfg) rs0 0 []
        (fun _ => all_slots cfg) with
    | (some asg, rs1, _cnt) =>
      (.ok ⟨asg.map (fun e => ⟨e.2.1, e.2.2, e.1⟩), cfg⟩, rs1)
    | (none, rs1, cnt) =>
      (.error (.noSolutionError
        "No valid timetable found after exhaustive search"
        (Diag.searchDiag cnt cfg.subjects.length
          (cfg.subjects.map (fun s => (s, conflicts s))))), rs1)

/-- scheduler.py HallAllocator._allocate_slot lines 257-261: the subjects
scheduled in one (day, slot). -/
def slotSubjects (tt : TimetableResult) (day slot : Nat) : List String :=
  (tt.assignments.filter
    (fun a => a.day == day && a.slot == slot)).map (·.subject)

/-- Sum of the counts an association list assigns to one key (a Python dict
has the key at most once; the list form sums every matching entry). -/
def keySum (l : List (String × Nat)) (s : String) : Nat :=
  ((l.filter (fun e => e.1 == s)).map (·.2)).sum

/-- One `+=` on a defaultdict(int): update the entry in place, or append the
key at the end on first touch (Python dicts preserve insertion order). -/
def bump (acc : List (String × Nat)) (s : String) (n : Nat) :
    List (String × Nat) :=
  if acc.any (fun e => e.1 == s) then
    acc.map (fun e => if e.1 == s then (e.1, e.2 + n) else e)
  else acc ++ [(s, n)]

/-- scheduler.py _allocate_slot lines 266-271: per-subject student demand of
a slot - for each group and each scheduled subject the group takes, add the
group's size. -/
def subject_students (groups : List StudentGroup)
    (subjects_in_slot : List String) : List (String × Nat) :=
  groups.foldl
    (fun acc g =>
      subjects_in_slot.foldl
        (fun acc2 s =>
          if g.subjects.contains s then bump acc2 s g.size else acc2)
        acc)
    []

/-- Spec 3: a subject's demand - the sum of `size` over groups enrolled in
it. -/
def demandOf (groups : List StudentGroup) (s : String) : Nat :=
  ((groups.filter (fun g => g.subjects.contains s)).map (·.size)).sum

/-- One `remaining[subject] -= amount` on the remaining-demand dict. -/
def decr (rem : List (String × Nat)) (s : String) (n : Nat) :
    List (String × Nat) :=
  rem.map (fun e => if e.1 == s then (e.1, e.2 - n) else e)

/-- scheduler.py _greedy_allocate lines 336-346: seats granted to one
subject in one step - min(count, per_subject_limit, residual capacity);
when exactly one subject of the slot still has positive remaining demand,
the per-subject cap is dropped and the amount is min(count, residual
capacity). -/
def allocAmount (limit cap : Nat) (rem : List (String × Nat))
    (c used : Nat) : Nat :=
  if (rem.filter (fun e => decide (0 < e.2))).length = 1 then
    min c (cap - used)
  else min c (min limit (cap - used))

/-- scheduler.py _greedy_allocate lines 322-351: fill one hall - walk the
snapshot of still-pending subjects (largest remaining first), allocating
allocAmount seats per subject and recording each positive grant.  Returns
(this hall's allocation list so far, updated remaining). -/
def fillHall (limit cap : Nat) :
    List (String × Nat) → List (String × Nat) → Nat →
      List (String × Nat) → List (String × Nat) × List (String × Nat)
  | [], rem, _used, acc => (acc, rem)
  | (s, c) :: rest, rem, used, acc =>
    if cap ≤ used then (acc, rem)
    else
      if 0 < allocAmount limit cap rem c used then
        fillHall limit cap rest
          (decr rem s (allocAmount limit cap rem c used))
          (used + allocAmount limit cap rem c used)
          (acc ++ [(s, allocAmount limit cap rem c used)])
      else fillHall limit cap rest rem used acc

/-- scheduler.py _greedy_allocate lines 305-361: the while loop - as long as
demand remains, take the next hall (error when halls are exhausted), fill
it, record its allocation when non-empty. -/
def greedyLoop (hc : HallConfig) (day slot : Nat) :
    List Hall → List (String × Nat) →
      Except SchedError (List HallAssignment)
  | halls, rem =>
    if rem.all (fun e => e.2 == 0) then .ok []
    else
      match halls with
      | [] =>
        .error (.insufficientHallCapacityError
          ("Insufficient hall capacity for slot Day " ++ toString (day + 1)
            ++ ", Slot " ++ toString (slot + 1))
          ((rem.map (·.2)).sum) hc.total_capacity rem)
      | hall :: rest =>
        let out := fillHall hc.per_subject_limit hall.capacity
          (stableSortDescBy (·.2) (rem.filter (fun e => decide (0 < e.2))))
          rem 0 []
        match greedyLoop hc day slot rest out.2 with
        | .ok tail =>
          .ok (if out.1.isEmpty then tail
            else ⟨hall.name, day, slot, out.1⟩ :: tail)
        | .error e => .error e

/-- scheduler.py: HallAllocator._greedy_allocate - sort halls by descending
capacity (stable) and run the fill loop. -/
def greedy_allocate (hc : HallConfig) (subject_students : List (String × Nat))
    (day slot : Nat) : Except SchedError (List HallAssignment) :=
  greedyLoop hc day slot (stableSortDescBy Hall.capacity hc.halls)
    subject_students

/-- scheduler.py: HallAllocator._allocate_slot - demand of the slot's
scheduled subjects, then greedy allocation; an empty slot yields nothing. -/
def allocate_slot (tt : TimetableResult) (hc : HallConfig)
    (day slot : Nat) : Except SchedError (List HallAssignment) :=
  let sis := slotSubjects tt day slot
  if sis.isEmpty then .ok []
  else greedy_allocate hc (subject_students tt.config.groups sis) day slot

/-- Day-major list of every (day, slot) cell, the order allocate_halls walks
them. -/
def allSlotPairs (days spd : Nat) : List (Nat × Nat) :=
  (List.range days).flatMap
    (fun day => (List.range spd).map (fun slot => (day, slot)))

/-- scheduler.py allocate_halls lines 235-238: concatenate the per-slot
assignments over the cells, in day-major order. -/
def allocate_halls_go (tt : TimetableResult) (hc : HallConfig) :
    List (Nat × Nat) → Except SchedError (List HallAssignment)
  | [] => .ok []
  | (day, slot) :: rest =>
    match allocate_slot tt hc day slot with
    | .ok a =>
      match allocate_halls_go tt hc rest with
      | .ok r => .ok (a ++ r)
      | .error e => .error e
    | .error e => .error e

/-- scheduler.py: HallAllocator.allocate_halls / module-level
allocate_halls - the full hall allocation pass. -/
def allocate_halls (tt : TimetableResult) (hc : HallConfig) :
    Except SchedError (List HallAssignment) :=
  allocate_halls_go tt hc
    (allSlotPairs tt.config.days tt.config.slots_per_day)

/-- The two-stage run the gateway performs: generate, then allocate.  The
allocator consumes no randomness, so the PRNG state after generation is the
state of the whole run. -/
def run_pipeline (P : PRNG σ) (s0 : σ) (cfg : TimetableConfig)
    (hc : HallConfig) :
    Except SchedError (TimetableResult × List HallAssignment) × σ :=
  match generate_timetable P s0 cfg with
  | (.ok tt, s1) =>
    match allocate_halls tt hc with
    | .ok res => (.ok (tt, res), s1)
    | .error e => (.error e, s1)
  | (.error e, s1) => (.error e, s1)

/-- A concrete generator instance for witnesses: the state counts consumed
shuffles and the shuffle keeps the materialized order (a legal shuffle
outcome). -/
def idPRNG : PRNG Nat where
  seedFn k := k.natAbs
  shuffleFn s l := (l, s + l.length)

end Timetable

deriving instance DecidableEq for Except

namespace Timetable

/-! Lemmas about the stable descending sort. -/

theorem insertDescBy_perm (key : α → Nat) (x : α) (l : List α) :
    (insertDescBy key x l).Perm (x :: l) := by
  induction l with
  | nil => exact List.Perm.refl _
  | cons y ys ih =>
    rw [insertDescBy]
    split
    · exact List.Perm.refl _
    · exact (ih.cons y).trans (List.Perm.swap x y ys)

theorem stableSortDescBy_perm (key : α → Nat) (l : List α) :
    (stableSortDescBy key l).Perm l := by
  induction l with
  | nil => exact List.Perm.refl _
  | cons x xs ih =>
    exact (insertDescBy_perm key x _).trans (ih.cons x)

theorem insertDescBy_pairwise (key : α → Nat) (x : α) {l : List α}
    (h : l.Pairwise (fun a b => key b ≤ key a)) :
    (insertDescBy key x l).Pairwise (fun a b => key b ≤ key a) := by
  induction l with
  | nil => simp [insertDescBy]
  | cons y ys ih =>
    rw [insertDescBy]
    rw [List.pairwise_cons] at h
    split
    · rename_i hk
      refine List.pairwise_cons.mpr ⟨?_, List.pairwise_cons.mpr h⟩
      intro z hz
      rcases List.mem_cons.mp hz with rfl | hz'
      · exact hk
      · exact le_trans (h.1 z hz') hk
    · rename_i hk
      push_neg at hk
      refine List.pairwise_cons.mpr ⟨?_, ih h.2⟩
      intro z hz
      have hz' := (insertDescBy_perm key x ys).mem_iff.mp hz
      rcases List.mem_cons.mp hz' with rfl | hz''
      · exact le_of_lt hk
      · exact h.1 z hz''

theorem stableSortDescBy_pairwise (key : α → Nat) (l : List α) :
    (stableSortDescBy key l).Pairwise (fun a b => key b ≤ key a) := by
  induction l with
  | nil => simp [stableSortDescBy]
  | cons x xs ih => exact insertDescBy_pairwise key x ih

theorem insertDescBy_filter (key : α → Nat) (k : Nat) (x : α)
    (l : List α) :
    (insertDescBy key x l).filter (fun a => key a == k) =
      if key x = k then x :: l.filter (fun a => key a == k)
      else l.filter (fun a => key a == k) := by
  induction l with
  | nil =>
    by_cases h : key x = k <;>
      simp [insertDescBy, List.filter_cons, h]
  | cons y ys ih =>
    rw [insertDescBy]
    split
    · rename_i hk
      by_cases h : key x = k <;> simp [List.filter_cons, h]
    · rename_i hk
      push_neg at hk
      by_cases h : key x = k
      · have hy : ¬(key y = k) := by omega
        simp [List.filter_cons, ih, h, hy]
      · by_cases hy : key y = k <;> simp [List.filter_cons, ih, h, hy]

theorem stableSortDescBy_filter (key : α → Nat) (k : Nat) (l : List α) :
    (stableSortDescBy key l).filter (fun a => key a == k) =
      l.filter (fun a => key a == k) := by
  induction l with
  | nil => rfl
  | cons x xs ih =>
    rw [stableSortDescBy, insertDescBy_filter]
    by_cases h : key x = k <;> simp [List.filter_cons, h, ih]

/-! Lemmas about the backtracking scheduler. -/

theorem is_consistent_slot_free {groups : List StudentGroup}
    {asg : List (String × Nat × Nat)} {subject : String} {day slot : Nat}
    (h : is_consistent groups asg subject day slot = true) :
    ∀ e ∈ asg, ¬(e.2.1 = day ∧ e.2.2 = slot) := by
  intro e he ⟨h1, h2⟩
  by_cases hany : asg.any (fun e => e.2.1 == day && e.2.2 == slot) = true
  · rw [is_consistent, if_pos hany] at h
    exact Bool.false_ne_true h
  · exact hany (List.any_eq_true.mpr ⟨e, he, by simp [h1, h2]⟩)

theorem forward_check_subset {asg : List (String × Nat × Nat)}
    {day slot : Nat} :
    ∀ (cs : List String) (doms doms' : String → List (Nat × Nat)),
      forward_check asg day slot cs doms = some doms' →
      ∀ t p, p ∈ doms' t → p ∈ doms t := by
  intro cs
  induction cs with
  | nil =>
    intro doms doms' h t p hp
    rw [forward_check] at h
    cases h
    exact hp
  | cons c cs ih =>
    intro doms doms' h t p hp
    simp only [forward_check] at h
    split at h
    · exact ih _ _ h t p hp
    · split at h
      · exact absurd h (by simp)
      · have hmem := ih _ _ h t p hp
        by_cases htc : (t == c) = true
        · have ht : t = c := by simpa using htc
          rw [if_pos htc] at hmem
          rw [ht]
          exact List.mem_of_mem_filter hmem
        · rwa [if_neg htc] at hmem

theorem tryCands_sound {σ : Type} {groups : List StudentGroup}
    {conflicts : String → List String} {subject : String}
    {Good : Nat × Nat → Prop}
    (recurse : σ → Nat → List (String × Nat × Nat) →
      (String → List (Nat × Nat)) →
      Option (List (String × Nat × Nat)) × σ × Nat)
    (rest : List String)
    (hrec : ∀ rs cnt asg doms asg',
      (recurse rs cnt asg doms).1 = some asg' →
      (∀ t p, p ∈ doms t → Good p) →
      (∀ e ∈ asg, Good e.2) →
      asg.Pairwise (fun a b => a.2 ≠ b.2) →
      ∃ ext, asg' = asg ++ ext ∧ ext.map (·.1) = rest ∧
        (∀ e ∈ ext, Good e.2) ∧
        (asg ++ ext).Pairwise (fun a b => a.2 ≠ b.2)) :
    ∀ (cs : List (Nat × Nat)) (rs : σ) (cnt : Nat) asg doms asg',
      (tryCands groups conflicts subject recurse cs rs cnt asg doms).1 =
        some asg' →
      (∀ c ∈ cs, Good c) →
      (∀ t p, p ∈ doms t → Good p) →
      (∀ e ∈ asg, Good e.2) →
      asg.Pairwise (fun a b => a.2 ≠ b.2) →
      ∃ ext, asg' = asg ++ ext ∧ ext.map (·.1) = subject :: rest ∧
        (∀ e ∈ ext, Good e.2) ∧
        (asg ++ ext).Pairwise (fun a b => a.2 ≠ b.2) := by
  intro cs
  induction cs with
  | nil =>
    intro rs cnt asg doms asg' h
    rw [tryCands] at h
    exact absurd h (by simp)
  | cons c cs ih =>
    obtain ⟨day, slot⟩ := c
    intro rs cnt asg doms asg' h hcs hdoms hasg hpair
    have hcs' : ∀ c ∈ cs, Good c := fun c hc => hcs c (List.mem_cons_of_mem _ hc)
    simp only [tryCands] at h
    split at h
    · rename_i hcons
      have hpair2 :
          (asg ++ [(subject, (day, slot))]).Pairwise
            (fun a b => a.2 ≠ b.2) := by
        rw [List.pairwise_append]
        refine ⟨hpair, List.pairwise_singleton _ _, ?_⟩
        intro a ha b hb
        rw [List.mem_singleton] at hb
        subst hb
        intro hab
        exact is_consistent_slot_free hcons a ha
          ⟨congrArg Prod.fst hab, congrArg Prod.snd hab⟩
      have hasg2 : ∀ e ∈ asg ++ [(subject, (day, slot))], Good e.2 := by
        intro e he
        rcases List.mem_append.mp he with he' | he'
        · exact hasg e he'
        · rw [List.mem_singleton] at he'
          subst he'
          exact hcs (day, slot) (List.mem_cons_self _ _)
      split at h
      · rename_i doms2 hfc
        split at h
        · rename_i final rs2 cnt2 hr
          have hdoms2 : ∀ t p, p ∈ doms2 t → Good p := fun t p hp =>
            hdoms t p (forward_check_subset _ _ _ hfc t p hp)
          obtain ⟨ext, hext, hmap, hgood, hpw⟩ :=
            hrec _ _ _ _ final (by rw [hr]) hdoms2 hasg2 hpair2
          have hfin : asg' = final := by simpa using h.symm
          refine ⟨(subject, (day, slot)) :: ext, ?_, ?_, ?_, ?_⟩
          · rw [hfin, hext]; simp
          · simp [hmap]
          · intro e he
            rcases List.mem_cons.mp he with rfl | he'
            · exact hcs (day, slot) (List.mem_cons_self _ _)
            · exact hgood e he'
          · have : asg ++ (subject, (day, slot)) :: ext =
                (asg ++ [(subject, (day, slot))]) ++ ext := by simp
            rw [this]
            exact hpw
        · rename_i rs2 cnt2 hr
          exact ih rs2 cnt2 asg doms asg' h hcs' hdoms hasg hpair
      · exact ih rs cnt asg doms asg' h hcs' hdoms hasg hpair
    · exact ih rs cnt asg doms asg' h hcs' hdoms hasg hpair

theorem backtrack_sound {σ : Type} (P : PRNG σ) (groups : List StudentGroup)
    (conflicts : String → List String) (Good : Nat × Nat → Prop)
    (hPG : ∀ rs l, (∀ c ∈ l, Good c) →
      ∀ c ∈ (P.shuffleFn rs l).1, Good c) :
    ∀ (subs : List String) (rs : σ) (cnt : Nat) asg doms asg',
      (backtrack P groups conflicts subs rs cnt asg doms).1 = some asg' →
      (∀ t p, p ∈ doms t → Good p) →
      (∀ e ∈ asg, Good e.2) →
      asg.Pairwise (fun a b => a.2 ≠ b.2) →
      ∃ ext, asg' = asg ++ ext ∧ ext.map (·.1) = subs ∧
        (∀ e ∈ ext, Good e.2) ∧
        (asg ++ ext).Pairwise (fun a b => a.2 ≠ b.2) := by
  intro subs
  induction subs with
  | nil =>
    intro rs cnt asg doms asg' h _ hasg hpair
    simp only [backtrack] at h
    have hax : asg' = asg := by simpa using h.symm
    subst hax
    exact ⟨[], by simp, rfl, by simp, by simpa using hpair⟩
  | cons s rest ih =>
    intro rs cnt asg doms asg' h hdoms hasg hpair
    simp only [backtrack] at h
    exact tryCands_sound
      (fun rs2 cnt2 asg2 doms2 =>
        backtrack P groups conflicts rest rs2 cnt2 asg2 doms2)
      rest
      (fun rs2 cnt2 asg2 doms2 a2 h2 => ih rs2 cnt2 asg2 doms2 a2 h2)
      _ _ _ _ _ _ h
      (hPG rs (doms s) (fun c hc => hdoms s c hc))
      hdoms hasg hpair

theorem mem_all_slots {cfg : TimetableConfig} {p : Nat × Nat} :
    p ∈ all_slots cfg ↔ p.1 < cfg.days ∧ p.2 < cfg.slots_per_day := by
  obtain ⟨a, b⟩ := p
  simp only [all_slots, List.mem_flatMap, List.mem_map, List.mem_range]
  constructor
  · rintro ⟨d, hd, sl, hsl, heq⟩
    obtain ⟨rfl, rfl⟩ := Prod.mk.injEq .. ▸ heq
    exact ⟨hd, hsl⟩
  · rintro ⟨ha, hb⟩
    exact ⟨a, ha, b, hb, rfl⟩

/-- Shape of a successful run of generate_timetable: the resulting
assignment list comes from the backtracking search, its subject order is the
static sorted order, its cells come from the domains, and its cells are
pairwise distinct. -/
theorem generate_success_shape {σ : Type} {P : PRNG σ} {s0 : σ}
    {cfg : TimetableConfig} {tt : TimetableResult}
    (Good : Nat × Nat → Prop)
    (h : (generate_timetable P s0 cfg).1 = Except.ok tt)
    (hPG : ∀ rs l, (∀ c ∈ l, Good c) → ∀ c ∈ (P.shuffleFn rs l).1, Good c)
    (hall : ∀ p ∈ all_slots cfg, Good p) :
    ∃ asg : List (String × Nat × Nat),
      tt.assignments = asg.map (fun e => ⟨e.2.1, e.2.2, e.1⟩) ∧
      asg.map (·.1) = subjectOrder cfg ∧
      (∀ e ∈ asg, Good e.2) ∧
      asg.Pairwise (fun a b => a.2 ≠ b.2) := by
  simp only [generate_timetable] at h
  split at h
  · exact absurd h (by simp)
  · split at h
    · exact absurd h (by simp)
    · split at h
      · rename_i asg rs1 cnt heq
        have htt : tt = ⟨asg.map (fun e => ⟨e.2.1, e.2.2, e.1⟩), cfg⟩ := by
          simpa using h.symm
        obtain ⟨ext, hext, hmap, hgood, hpw⟩ :=
          backtrack_sound P cfg.groups (build_conflict_graph cfg.groups)
            Good hPG
            (subjectOrder cfg) _ 0 [] (fun _ => all_slots cfg) asg
            (by rw [heq]) (fun t p hp => hall p hp) (by simp) (by simp)
        rw [List.nil_append] at hext hpw
        rw [hext] at htt
        exact ⟨ext, by rw [htt], hmap, hgood, hpw⟩
      · exact absurd h (by simp)

/-- C1: on every successful generate_timetable run, the result assigns every
configured subject exactly one in-range (day, slot), no two subjects share a
cell, and every group's subjects sit in pairwise distinct cells. -/
theorem claim1_timetable_invariants (σ : Type) (P : PRNG σ)
    (hP : ∀ rs l c, c ∈ (P.shuffleFn rs l).1 → c ∈ l)
    (s0 : σ) (cfg : TimetableConfig) (hnd : cfg.subjects.Nodup)
    (tt : TimetableResult)
    (h : (generate_timetable P s0 cfg).1 = Except.ok tt) :
    (tt.assignments.map (·.subject)).Perm cfg.subjects ∧
    (∀ s ∈ cfg.subjects,
      (tt.assignments.filter (fun a => a.subject == s)).length = 1) ∧
    (∀ a ∈ tt.assignments, a.day < cfg.days ∧ a.slot < cfg.slots_per_day) ∧
    tt.assignments.Pairwise
      (fun a b => (a.day, a.slot) ≠ (b.day, b.slot)) ∧
    ∀ g ∈ cfg.groups, tt.assignments.Pairwise (fun a b =>
      a.subject ∈ g.subjects → b.subject ∈ g.subjects →
        (a.day, a.slot) ≠ (b.day, b.slot)) := by
  obtain ⟨asg, hta, hmap, hgood, hpw⟩ :=
    generate_success_shape
      (fun p => p.1 < cfg.days ∧ p.2 < cfg.slots_per_day) h
      (fun rs l hl c hc => hl c (hP rs l c hc))
      (fun p hp => mem_all_slots.mp hp)
  rw [hta]
  have hsubj :
      ((asg.map (fun e => (⟨e.2.1, e.2.2, e.1⟩ : ExamSlot))).map
        (·.subject)) = subjectOrder cfg := by
    rw [List.map_map]
    exact hmap
  have hpairs : (asg.map (fun e => (⟨e.2.1, e.2.2, e.1⟩ : ExamSlot))).Pairwise
      (fun a b => (a.day, a.slot) ≠ (b.day, b.slot)) :=
    List.pairwise_map.mpr (hpw.imp (fun hne => hne))
  refine ⟨?_, ?_, ?_, hpairs, ?_⟩
  · rw [hsubj]
    exact stableSortDescBy_perm _ _
  · intro s hs
    have hc1 : List.count s (subjectOrder cfg) = 1 :=
      ((stableSortDescBy_perm _ cfg.subjects).count_eq s).trans
        (List.count_eq_one_of_mem hnd hs)
    have hcnt : ((asg.map (fun e => (⟨e.2.1, e.2.2, e.1⟩ : ExamSlot))).filter
          (fun a => a.subject == s)).length =
        List.count s ((asg.map
          (fun e => (⟨e.2.1, e.2.2, e.1⟩ : ExamSlot))).map (·.subject)) := by
      rw [← List.countP_eq_length_filter]
      show _ = List.countP (fun x => x == s) _
      simp only [List.countP_map]
      rfl
    rw [hcnt, hsubj]
    exact hc1
  · intro a ha
    obtain ⟨e, he, rfl⟩ := List.mem_map.mp ha
    exact hgood e he
  · intro g _
    exact hpairs.imp (fun hne => fun _ _ => hne)

/-- C9: the variable order is static - subjects sorted by descending
conflict degree with ties keeping input order - and on every successful run,
for every generator and state, the result lists subjects in exactly that
order, so the seed never influences it. -/
theorem claim9_static_variable_order (cfg : TimetableConfig) :
    (subjectOrder cfg).Perm cfg.subjects ∧
    (subjectOrder cfg).Pairwise (fun a b =>
      count_conflicts b (build_conflict_graph cfg.groups) ≤
        count_conflicts a (build_conflict_graph cfg.groups)) ∧
    (∀ k : Nat, (subjectOrder cfg).filter
        (fun s =>
          count_conflicts s (build_conflict_graph cfg.groups) == k) =
      cfg.subjects.filter
        (fun s =>
          count_conflicts s (build_conflict_graph cfg.groups) == k)) ∧
    ∀ (σ : Type) (P : PRNG σ) (s0 : σ) (tt : TimetableResult),
      (generate_timetable P s0 cfg).1 = Except.ok tt →
      tt.assignments.map (·.subject) = subjectOrder cfg := by
  refine ⟨stableSortDescBy_perm _ _, stableSortDescBy_pairwise _ _,
    fun k => stableSortDescBy_filter _ k _, ?_⟩
  intro σ P s0 tt h
  obtain ⟨asg, hta, hmap, _, _⟩ :=
    generate_success_shape (fun _ => True) h
      (fun _ _ _ _ _ => trivial) (fun _ _ => trivial)
  rw [hta, List.map_map]
  exact hmap

/-- When validate_config reports a valid configuration, the subject count
cannot exceed the slot count: utils.py line 49 already flags that case, so
the scheduler's own InsufficientSlots check can never be reached. -/
theorem validate_config_slots {cfg : TimetableConfig}
    (h : (validate_config cfg).1 = true) :
    ¬ (cfg.subjects.length > cfg.total_slots) := by
  intro hgt
  simp only [validate_config] at h
  rw [if_pos hgt] at h
  simp at h

/-- Configuration of spec scenario S2: two subjects, a single slot. -/
def cfgS2 : TimetableConfig :=
  ⟨1, 1, ["M", "E"], [⟨"g", ["M", "E"], 10⟩], none⟩

/-- C2 (code bug): on a config with more subjects than slots the code raises
the generic NoSolutionError "Invalid configuration" carrying validation
messages - validate_config flags the slot shortage first, so the
distinguished InsufficientSlotsError branch (scheduler.py lines 58-67) is
dead code: no run of generate_timetable can ever produce it. -/
theorem claim2_insufficient_slots_dead (σ : Type) (P : PRNG σ) (s0 : σ)
    (cfg : TimetableConfig) (msg : String) (sc ts df : Nat) :
    (generate_timetable idPRNG 0 cfgS2).1 =
      Except.error (.noSolutionError "Invalid configuration"
        (Diag.validationErrors
          ["Insufficient slots: 2 subjects need 1 slots"])) ∧
    (generate_timetable P s0 cfg).1 ≠
      Except.error (.insufficientSlotsError msg sc ts df) := by
  constructor
  · rfl
  · intro h
    simp only [generate_timetable] at h
    split at h
    · simp at h
    · rename_i hval
      split at h
      · rename_i hgt
        have hv : (validate_config cfg).1 = true := by
          simpa using hval
        exact validate_config_slots hv hgt
      · split at h
        · simp at h
        · simp at h

/-- Configuration violating a structural precondition: group g claims a
subject X absent from the config subject list. -/
def cfgC8 : TimetableConfig :=
  ⟨2, 2, ["M"], [⟨"g", ["M", "X"], 5⟩], none⟩

/-- C8 counterexample: a structurally invalid configuration does not fail
with a distinct InvalidConfig kind - the engine raises the NoSolutionError
class itself (message "Invalid configuration"), the same class as the
solver's search failure. -/
theorem claim8_counterexample :
    (generate_timetable idPRNG 0 cfgC8).1 =
      Except.error (.noSolutionError "Invalid configuration"
        (Diag.validationErrors
          ["Subject " ++ sq ++ "X" ++ sq ++
            " in groups but not in subject list"])) := rfl

/-- C8 amended: every configuration that fails validation makes
generate_timetable fail with the NoSolutionError kind, message "Invalid
configuration" and the validation messages as diagnostics; no separate
InvalidConfig kind exists in the engine. -/
theorem claim8_amended_validation_error (σ : Type) (P : PRNG σ) (s0 : σ)
    (cfg : TimetableConfig) (errs : List String)
    (h : validate_config cfg = (false, errs)) :
    (generate_timetable P s0 cfg).1 =
      Except.error (.noSolutionError "Invalid configuration"
        (Diag.validationErrors errs)) := by
  simp [generate_timetable, h]

theorem claim8_witness :
    (generate_timetable idPRNG 0 cfgC8).1 =
      Except.error (.noSolutionError "Invalid configuration"
        (Diag.validationErrors
          ["Subject " ++ sq ++ "X" ++ sq ++
            " in groups but not in subject list"])) :=
  claim8_amended_validation_error Nat idPRNG 0 cfgC8
    ["Subject " ++ sq ++ "X" ++ sq ++ " in groups but not in subject list"]
    rfl

/-- C6: with a seed configured, the whole generate-then-allocate run is a
function of (config, hall config, generator) alone - the pre-existing
generator state is discarded by the seeding, so two runs on identical input
agree exactly. -/
theorem claim6_seed_determinism (σ : Type) (P : PRNG σ) (s1 s2 : σ)
    (cfg : TimetableConfig) (hc : HallConfig) (k : Int)
    (h : cfg.random_seed = some k) :
    run_pipeline P s1 cfg hc = run_pipeline P s2 cfg hc := by
  simp only [run_pipeline, generate_timetable, h]

/-- Seeded configuration of spec scenario S1. -/
def cfgS1seeded : TimetableConfig :=
  ⟨1, 2, ["M", "E"], [⟨"g", ["M", "E"], 10⟩], some 7⟩

theorem claim6_witness :
    run_pipeline idPRNG 0 cfgS1seeded ⟨[⟨"H1", 20⟩], 30⟩ =
      run_pipeline idPRNG 5 cfgS1seeded ⟨[⟨"H1", 20⟩], 30⟩ :=
  claim6_seed_determinism Nat idPRNG 0 5 cfgS1seeded ⟨[⟨"H1", 20⟩], 30⟩ 7 rfl

/-- Configuration of spec scenario S1 (no seed). -/
def cfgS1 : TimetableConfig :=
  ⟨1, 2, ["M", "E"], [⟨"g", ["M", "E"], 10⟩], none⟩

/-- The timetable generate_timetable produces for cfgS1 under idPRNG. -/
def ttS1 : TimetableResult :=
  ⟨[⟨0, 0, "M"⟩, ⟨0, 1, "E"⟩], cfgS1⟩

theorem claim1_witness :
    ((ttS1.assignments.map (·.subject)).Perm cfgS1.subjects) ∧
    ttS1.assignments.Pairwise
      (fun a b => (a.day, a.slot) ≠ (b.day, b.slot)) := by
  have H := claim1_timetable_invariants Nat idPRNG (fun _ _ _ hc => hc) 0
    cfgS1 (by decide) ttS1 rfl
  exact ⟨H.1, H.2.2.2.1⟩

/-! Lemmas about the hall allocator's remaining-demand bookkeeping. -/

/-- Total of the counts of an allocation list. -/
def sumCounts (l : List (String × Nat)) : Nat := (l.map (·.2)).sum

/-- Repeated `-=`: subtract a whole allocation list from a remaining map. -/
def decrList (rem : List (String × Nat)) (l : List (String × Nat)) :
    List (String × Nat) :=
  l.foldl (fun r e => decr r e.1 e.2) rem

/-- All allocations of one (day, slot) of an allocation result, in emission
order. -/
def slotStream (res : List HallAssignment) (day slot : Nat) :
    List (String × Nat) :=
  (res.filter (fun A => A.day == day && A.slot == slot)).flatMap
    (·.allocations)

/-- Total demand of the subjects scheduled in one slot. -/
def slotDemand (tt : TimetableResult) (day slot : Nat) : Nat :=
  ((slotSubjects tt day slot).map (demandOf tt.config.groups)).sum

theorem keySum_cons (a : String × Nat) (l : List (String × Nat))
    (t : String) :
    keySum (a :: l) t = (if a.1 == t then a.2 else 0) + keySum l t := by
  by_cases h : a.1 == t <;> simp [keySum, List.filter_cons, h]

theorem keySum_append (l1 l2 : List (String × Nat)) (t : String) :
    keySum (l1 ++ l2) t = keySum l1 t + keySum l2 t := by
  simp [keySum, List.filter_append]

theorem keySum_eq_zero {rem : List (String × Nat)} {s : String}
    (h : s ∉ rem.map (·.1)) : keySum rem s = 0 := by
  induction rem with
  | nil => rfl
  | cons e l ih =>
    rw [keySum_cons]
    simp only [List.map_cons, List.mem_cons] at h
    push_neg at h
    rw [if_neg (by simpa using Ne.symm h.1), ih h.2]

theorem keySum_entry {rem : List (String × Nat)} {e : String × Nat}
    (hnd : (rem.map (·.1)).Nodup) (he : e ∈ rem) : keySum rem e.1 = e.2 := by
  induction rem with
  | nil => cases he
  | cons a l ih =>
    simp only [List.map_cons, List.nodup_cons] at hnd
    rw [keySum_cons]
    rcases List.mem_cons.mp he with rfl | he'
    · rw [if_pos (by simp), keySum_eq_zero (by simpa using hnd.1)]
      omega
    · have hne : ¬((a.1 == e.1) = true) := by
        simp only [beq_iff_eq]
        intro hcontra
        exact hnd.1 (hcontra ▸ List.mem_map_of_mem (·.1) he')
      rw [if_neg hne, ih hnd.2 he']
      omega

theorem keySum_all_zero {rem : List (String × Nat)}
    (h : rem.all (fun e => e.2 == 0)) (s : String) : keySum rem s = 0 := by
  induction rem with
  | nil => rfl
  | cons a l ih =>
    simp only [List.all_cons, Bool.and_eq_true, beq_iff_eq] at h
    rw [keySum_cons, ih (by simpa using h.2)]
    simp [h.1]

theorem decr_keys (rem : List (String × Nat)) (s : String) (n : Nat) :
    (decr rem s n).map (·.1) = rem.map (·.1) := by
  simp only [decr, List.map_map]
  apply List.map_congr_left
  intro e _
  show (if (e.1 == s) = true then (e.1, e.2 - n) else e).1 = e.1
  split <;> rfl

theorem keySum_decr_ne {rem : List (String × Nat)} {s t : String}
    (hts : t ≠ s) (n : Nat) : keySum (decr rem s n) t = keySum rem t := by
  induction rem with
  | nil => rfl
  | cons a l ih =>
    have hstep : decr (a :: l) s n =
        (if (a.1 == s) = true then (a.1, a.2 - n) else a) :: decr l s n := rfl
    rw [hstep, keySum_cons, keySum_cons, ih]
    by_cases has : (a.1 == s) = true
    · have ha : a.1 = s := beq_iff_eq.mp has
      have hat : (a.1 == t) = false := by
        rw [ha]
        exact beq_eq_false_iff_ne.mpr (fun hc => hts hc.symm)
      simp [has, hat]
    · simp [has]

theorem keySum_decr_self {rem : List (String × Nat)} {s : String}
    (hnd : (rem.map (·.1)).Nodup) (n : Nat) :
    keySum (decr rem s n) s = keySum rem s - n := by
  induction rem with
  | nil => simp [decr, keySum]
  | cons a l ih =>
    simp only [List.map_cons, List.nodup_cons] at hnd
    have hstep : decr (a :: l) s n =
        (if (a.1 == s) = true then (a.1, a.2 - n) else a) :: decr l s n := rfl
    rw [hstep, keySum_cons, keySum_cons]
    by_cases has : (a.1 == s) = true
    · have ha : a.1 = s := beq_iff_eq.mp has
      have hs : s ∉ l.map (·.1) := by
        rw [← ha]
        exact hnd.1
      have hs2 : s ∉ (decr l s n).map (·.1) := by
        rw [decr_keys]
        exact hs
      rw [keySum_eq_zero hs, keySum_eq_zero hs2]
      simp [has]
    · rw [if_neg has, ih hnd.2]
      have : (if ((if (a.1 == s) = true then (a.1, a.2 - n) else a).1 == s) =
          true then (if (a.1 == s) = true then (a.1, a.2 - n) else a).2
          else 0) = (if (a.1 == s) = true then a.2 - n else 0) := by
        rw [if_neg has, if_neg has, if_neg has]
      rw [if_neg has] at this ⊢
      omega

theorem decrList_keys (rem : List (String × Nat))
    (l : List (String × Nat)) :
    (decrList rem l).map (·.1) = rem.map (·.1) := by
  induction l generalizing rem with
  | nil => rfl
  | cons e l ih =>
    rw [show decrList rem (e :: l) = decrList (decr rem e.1 e.2) l from rfl,
      ih, decr_keys]

theorem decrList_append (rem : List (String × Nat))
    (l1 l2 : List (String × Nat)) :
    decrList rem (l1 ++ l2) = decrList (decrList rem l1) l2 := by
  simp [decrList, List.foldl_append]

theorem keySum_decrList {rem : List (String × Nat)}
    (hnd : (rem.map (·.1)).Nodup) (l : List (String × Nat)) (s : String) :
    keySum (decrList rem l) s = keySum rem s - keySum l s := by
  induction l generalizing rem with
  | nil => simp [decrList, keySum]
  | cons e l ih =>
    rw [show decrList rem (e :: l) = decrList (decr rem e.1 e.2) l from rfl,
      ih ((decr_keys rem e.1 e.2).symm ▸ hnd), keySum_cons]
    by_cases h : e.1 == s
    · rw [beq_iff_eq] at h
      subst h
      rw [keySum_decr_self hnd]
      simp
      omega
    · rw [keySum_decr_ne (fun hc => by simp [hc.symm] at h)]
      simp [h]

/-! Lemmas about the per-slot demand map subject_students. -/

theorem bump_cons_ne {a : String × Nat} {l : List (String × Nat)}
    {s : String} (h : ¬((a.1 == s) = true)) (n : Nat) :
    bump (a :: l) s n = a :: bump l s n := by
  simp only [bump, List.any_cons, h, Bool.false_or]
  split
  · rw [List.map_cons, if_neg h]
  · simp

theorem bump_cons_eq {a : String × Nat} {l : List (String × Nat)}
    {s : String} (h : (a.1 == s) = true) (hnd : a.1 ∉ l.map (·.1))
    (n : Nat) : bump (a :: l) s n = (a.1, a.2 + n) :: l := by
  simp only [bump, List.any_cons, h, Bool.true_or, if_pos, List.map_cons]
  congr 1
  have hu : ∀ e ∈ l, (if (e.1 == s) = true then (e.1, e.2 + n) else e) = e := by
    intro e he
    rw [if_neg]
    simp only [beq_iff_eq]
    intro hc
    rw [beq_iff_eq] at h
    exact hnd (h ▸ hc ▸ List.mem_map_of_mem (·.1) he)
  rw [List.map_congr_left hu, List.map_id']

theorem bump_keys (acc : List (String × Nat)) (s : String) (n : Nat) :
    (bump acc s n).map (·.1) =
      if (acc.any (fun e => e.1 == s)) = true then acc.map (·.1)
      else acc.map (·.1) ++ [s] := by
  simp only [bump]
  split
  · rw [List.map_map]
    apply List.map_congr_left
    intro e _
    show (if (e.1 == s) = true then (e.1, e.2 + n) else e).1 = e.1
    split <;> rfl
  · simp

theorem bump_keys_nodup {acc : List (String × Nat)} {s : String}
    (hnd : (acc.map (·.1)).Nodup) (n : Nat) :
    ((bump acc s n).map (·.1)).Nodup := by
  rw [bump_keys]
  split
  · exact hnd
  · rename_i hany
    have hs : s ∉ acc.map (·.1) := by
      intro hc
      rcases List.mem_map.mp hc with ⟨e, he, hkey⟩
      exact hany (List.any_eq_true.mpr ⟨e, he, by simp [hkey]⟩)
    rw [List.nodup_append]
    refine ⟨hnd, List.nodup_singleton s, ?_⟩
    intro a ha hc
    rw [List.mem_singleton] at hc
    exact hs (hc ▸ ha)

theorem keySum_bump {acc : List (String × Nat)} {s : String}
    (hnd : (acc.map (·.1)).Nodup) (t : String) (n : Nat) :
    keySum (bump acc s n) t =
      keySum acc t + (if (s == t) = true then n else 0) := by
  induction acc with
  | nil =>
    rw [show bump [] s n = [(s, n)] from rfl, keySum_cons]
    show (if (s == t) = true then n else 0) + 0 = 0 + _
    omega
  | cons a l ih =>
    simp only [List.map_cons, List.nodup_cons] at hnd
    by_cases h : (a.1 == s) = true
    · rw [bump_cons_eq h hnd.1 n, keySum_cons, keySum_cons]
      have ha : a.1 = s := beq_iff_eq.mp h
      by_cases hat : (a.1 == t) = true
      · have hst : (s == t) = true := ha ▸ hat
        simp only [hat, hst, if_pos]
        omega
      · have hst : (s == t) = false := by
          rw [← ha]
          exact Bool.of_not_eq_true hat
        simp only [hat, hst]
        simp
    · rw [bump_cons_ne h n, keySum_cons, keySum_cons, ih hnd.2]
      omega

theorem inner_fold_nodup (g : StudentGroup) (sis : List String) :
    ∀ acc : List (String × Nat), (acc.map (·.1)).Nodup →
      ((sis.foldl (fun acc2 s =>
        if g.subjects.contains s then bump acc2 s g.size else acc2)
          acc).map (·.1)).Nodup := by
  induction sis with
  | nil => intro acc h; exact h
  | cons u rest ih =>
    intro acc h
    rw [List.foldl_cons]
    by_cases hu : g.subjects.contains u = true
    · rw [if_pos hu]
      exact ih _ (bump_keys_nodup h g.size)
    · rw [if_neg hu]
      exact ih _ h

theorem inner_fold_keySum (g : StudentGroup) {sis : List String}
    (hsis : sis.Nodup) :
    ∀ acc : List (String × Nat), (acc.map (·.1)).Nodup → ∀ t : String,
      keySum (sis.foldl (fun acc2 s =>
        if g.subjects.contains s then bump acc2 s g.size else acc2) acc) t =
      keySum acc t +
        (if (sis.contains t && g.subjects.contains t) = true then g.size
          else 0) := by
  induction sis with
  | nil =>
    intro acc _ t
    simp
  | cons u rest ih =>
    rw [List.nodup_cons] at hsis
    intro acc hacc t
    rw [List.foldl_cons]
    by_cases hu : g.subjects.contains u = true
    · rw [if_pos hu, ih hsis.2 _ (bump_keys_nodup hacc g.size) t,
        keySum_bump hacc t g.size]
      by_cases hut : u = t
      · subst hut
        have h1 : u ∉ rest := hsis.1
        have h2 : u ∈ g.subjects := by simpa using hu
        simp [h1, h2]
      · have h3 : ¬(t = u) := fun hc => hut hc.symm
        have h4 : (u == t) = false :=
          Bool.of_not_eq_true (by simpa using hut)
        simp [h3, h4]
    · rw [if_neg hu, ih hsis.2 _ hacc t]
      by_cases hut : u = t
      · subst hut
        have h2 : u ∉ g.subjects := by simpa using hu
        simp [h2]
      · have h3 : ¬(t = u) := fun hc => hut hc.symm
        simp [h3]

theorem demandOf_cons (g : StudentGroup) (gs : List StudentGroup)
    (t : String) :
    demandOf (g :: gs) t =
      (if g.subjects.contains t = true then g.size else 0) + demandOf gs t := by
  by_cases h : t ∈ g.subjects <;>
    simp [demandOf, List.filter_cons, h]

theorem subject_students_nodup (groups : List StudentGroup)
    (sis : List String) :
    ((subject_students groups sis).map (·.1)).Nodup := by
  suffices hgen : ∀ acc : List (String × Nat), (acc.map (·.1)).Nodup →
      ((groups.foldl (fun acc g =>
        sis.foldl (fun acc2 s =>
          if g.subjects.contains s then bump acc2 s g.size else acc2) acc)
        acc).map (·.1)).Nodup by
    exact hgen [] (by simp)
  induction groups with
  | nil => intro acc h; exact h
  | cons g gs ih =>
    intro acc h
    rw [List.foldl_cons]
    exact ih _ (inner_fold_nodup g sis acc h)

theorem subject_students_keySum {groups : List StudentGroup}
    {sis : List String} (hsis : sis.Nodup) (t : String) :
    keySum (subject_students groups sis) t =
      if sis.contains t = true then demandOf groups t else 0 := by
  suffices hgen : ∀ acc : List (String × Nat), (acc.map (·.1)).Nodup →
      keySum (groups.foldl (fun acc g =>
        sis.foldl (fun acc2 s =>
          if g.subjects.contains s then bump acc2 s g.size else acc2) acc)
        acc) t =
      keySum acc t + (if sis.contains t = true then demandOf groups t
        else 0) by
    have h0 := hgen [] (by simp)
    simp only [subject_students]
    rw [h0]
    show 0 + _ = _
    omega
  induction groups with
  | nil =>
    intro acc _
    simp [demandOf]
  | cons g gs ih =>
    intro acc hacc
    rw [List.foldl_cons, ih _ (inner_fold_nodup g sis acc hacc),
      inner_fold_keySum g hsis acc hacc t, demandOf_cons]
    by_cases hst : t ∈ sis
    · by_cases hgt : t ∈ g.subjects <;> simp [hst, hgt] <;> omega
    · simp [hst]

/-! The per-hall fill loop and its invariants. -/

theorem allocAmount_le_avail (limit cap : Nat) (rem : List (String × Nat))
    (c used : Nat) : allocAmount limit cap rem c used ≤ cap - used := by
  rw [allocAmount]
  split
  · exact min_le_right _ _
  · exact le_trans (min_le_right _ _) (min_le_right _ _)

theorem allocAmount_le_count (limit cap : Nat) (rem : List (String × Nat))
    (c used : Nat) : allocAmount limit cap rem c used ≤ c := by
  rw [allocAmount]
  split
  · exact min_le_left _ _
  · exact min_le_left _ _

theorem allocAmount_cases (limit cap : Nat) (rem : List (String × Nat))
    (c used : Nat) :
    allocAmount limit cap rem c used ≤ limit ∨
      (rem.filter (fun p => decide (0 < p.2))).length = 1 := by
  rw [allocAmount]
  split
  · rename_i h
    exact Or.inr h
  · exact Or.inl (le_trans (min_le_right _ _) (min_le_left _ _))

/-- Everything a caller needs to know about filling one hall: the emitted
allocation list extends the accumulator by a block d; the remaining demand
is rem minus d; the hall's capacity bounds used + d; every grant is
positive, names a snapshot subject, and never exceeds the demand still
pending at its moment; and a grant above the per-subject limit can only
happen when, at its moment, exactly one subject still has positive
remaining demand. -/
theorem fillHall_spec (limit cap : Nat) :
    ∀ (snap rem : List (String × Nat)) (used : Nat)
      (acc : List (String × Nat)),
      (∀ e ∈ snap, keySum rem e.1 = e.2) →
      (snap.map (·.1)).Nodup →
      (rem.map (·.1)).Nodup →
      ∃ d : List (String × Nat),
        (fillHall limit cap snap rem used acc).1 = acc ++ d ∧
        (fillHall limit cap snap rem used acc).2 = decrList rem d ∧
        (used ≤ cap → used + sumCounts d ≤ cap) ∧
        (∀ e ∈ d, 0 < e.2 ∧ e.1 ∈ snap.map (·.1)) ∧
        (∀ t, keySum d t ≤ keySum rem t) ∧
        (∀ d1 e d2, d = d1 ++ e :: d2 →
          e.2 + keySum d1 e.1 ≤ keySum rem e.1 ∧
          e.2 + used + sumCounts d1 ≤ cap ∧
          (e.2 ≤ limit ∨
            ((decrList rem d1).filter
              (fun p => decide (0 < p.2))).length = 1)) := by
  intro snap
  induction snap with
  | nil =>
    intro rem used acc _ _ _
    refine ⟨[], by simp [fillHall], rfl, by simpa [sumCounts] using id,
      by simp, by simp [keySum], ?_⟩
    intro d1 e d2 h
    exact absurd h (by simp)
  | cons hd rest ih =>
    obtain ⟨s, c⟩ := hd
    intro rem used acc hsnap hsnd hrnd
    by_cases hcap : cap ≤ used
    · refine ⟨[],
        by simp [fillHall, hcap],
        by rw [fillHall, if_pos hcap]; rfl,
        fun hle => ?_, by simp, by simp [keySum], ?_⟩
      · have : used = cap := le_antisymm hle hcap
        simp [sumCounts, this]
      · intro d1 e d2 h
        exact absurd h (by simp)
    · simp only [List.map_cons, List.nodup_cons] at hsnd
      by_cases hpos : 0 < allocAmount limit cap rem c used
      · have hrw : fillHall limit cap ((s, c) :: rest) rem used acc =
            fillHall limit cap rest
              (decr rem s (allocAmount limit cap rem c used))
              (used + allocAmount limit cap rem c used)
              (acc ++ [(s, allocAmount limit cap rem c used)]) := by
          rw [fillHall, if_neg hcap, if_pos hpos]
        have hsnap' : ∀ e ∈ rest,
            keySum (decr rem s (allocAmount limit cap rem c used)) e.1 =
              e.2 := by
          intro e he
          have hne : e.1 ≠ s := by
            intro hc
            exact hsnd.1 (hc ▸ List.mem_map_of_mem (·.1) he)
          rw [keySum_decr_ne hne]
          exact hsnap e (List.mem_cons_of_mem _ he)
        have hrnd' :
            ((decr rem s (allocAmount limit cap rem c used)).map
              (·.1)).Nodup := by
          rw [decr_keys]
          exact hrnd
        obtain ⟨d', h1, h2, h3, h4, h5, h6⟩ :=
          ih (decr rem s (allocAmount limit cap rem c used))
            (used + allocAmount limit cap rem c used)
            (acc ++ [(s, allocAmount limit cap rem c used)])
            hsnap' hsnd.2 hrnd'
        have hks : keySum rem s = c :=
          hsnap (s, c) (List.mem_cons_self _ _)
        have hav : allocAmount limit cap rem c used ≤ cap - used :=
          allocAmount_le_avail limit cap rem c used
        have hlc : allocAmount limit cap rem c used ≤ c :=
          allocAmount_le_count limit cap rem c used
        refine ⟨(s, allocAmount limit cap rem c used) :: d', ?_, ?_, ?_,
          ?_, ?_, ?_⟩
        · rw [hrw, h1]
          simp
        · rw [hrw, h2]
          rfl
        · intro hle
          have := h3 (by omega)
          simp only [sumCounts, List.map_cons, List.sum_cons]
          simp only [sumCounts] at this
          omega
        · intro e he
          rcases List.mem_cons.mp he with rfl | he'
          · exact ⟨hpos, by simp⟩
          · obtain ⟨hp, hk⟩ := h4 e he'
            exact ⟨hp, List.mem_cons_of_mem _ hk⟩
        · intro t
          rw [keySum_cons]
          by_cases hts : (s == t) = true
          · have ht : s = t := beq_iff_eq.mp hts
            subst ht
            have hd5 := h5 s
            rw [keySum_decr_self hrnd] at hd5
            rw [if_pos hts]
            have hle : allocAmount limit cap rem c used ≤ keySum rem s := by
              rw [hks]
              exact hlc
            omega
          · have ht : s ≠ t := by simpa using hts
            have hd5 := h5 t
            rw [keySum_decr_ne (fun hc => ht hc.symm)] at hd5
            rw [if_neg hts]
            omega
        · intro d1 e d2 hdec
          rcases d1 with _ | ⟨d1h, d1t⟩
          · simp only [List.nil_append, List.cons.injEq] at hdec
            obtain ⟨rfl, _⟩ := hdec
            refine ⟨?_, ?_, ?_⟩
            · show allocAmount limit cap rem c used + keySum [] s ≤
                keySum rem s
              rw [show keySum ([] : List (String × Nat)) s = 0 from rfl,
                hks]
              omega
            · show allocAmount limit cap rem c used + used + sumCounts [] ≤
                cap
              rw [show sumCounts ([] : List (String × Nat)) = 0 from rfl]
              omega
            · rcases allocAmount_cases limit cap rem c used with hl | hr
              · exact Or.inl hl
              · exact Or.inr (by simpa [decrList] using hr)
          · simp only [List.cons_append, List.cons.injEq] at hdec
            obtain ⟨rfl, hdec'⟩ := hdec
            obtain ⟨hb1, hb2, hb3⟩ := h6 d1t e d2 hdec'
            refine ⟨?_, ?_, ?_⟩
            · rw [keySum_cons]
              by_cases hts : (s == e.1) = true
              · have ht : s = e.1 := beq_iff_eq.mp hts
                rw [if_pos hts]
                rw [← ht] at hb1 ⊢
                rw [keySum_decr_self hrnd] at hb1
                have hle : allocAmount limit cap rem c used ≤
                    keySum rem s := by
                  rw [hks]
                  exact hlc
                omega
              · have ht : e.1 ≠ s := fun hc => by simp [hc] at hts
                rw [keySum_decr_ne ht] at hb1
                rw [if_neg hts]
                omega
            · simp only [sumCounts, List.map_cons, List.sum_cons]
              simp only [sumCounts] at hb2
              omega
            · rcases hb3 with hl | hr
              · exact Or.inl hl
              · refine Or.inr ?_
                rw [show decrList rem
                    ((s, allocAmount limit cap rem c used) :: d1t) =
                  decrList (decr rem s (allocAmount limit cap rem c used))
                    d1t from rfl]
                exact hr
      · have hrw : fillHall limit cap ((s, c) :: rest) rem used acc =
            fillHall limit cap rest rem used acc := by
          rw [fillHall, if_neg hcap, if_neg hpos]
        obtain ⟨d', h1, h2, h3, h4, h5, h6⟩ :=
          ih rem used acc
            (fun e he => hsnap e (List.mem_cons_of_mem _ he)) hsnd.2 hrnd
        refine ⟨d', by rw [hrw, h1], by rw [hrw, h2], h3, ?_, h5, h6⟩
        intro e he
        obtain ⟨hp, hk⟩ := h4 e he
        exact ⟨hp, List.mem_cons_of_mem _ hk⟩

theorem sumCounts_append (l1 l2 : List (String × Nat)) :
    sumCounts (l1 ++ l2) = sumCounts l1 + sumCounts l2 := by
  simp [sumCounts]

/-- Everything a successful run of the per-slot while loop guarantees: each
assignment is labelled with the slot, is non-empty, and fits a hall of the
walked list; halls appear in walk order; every grant is positive and names a
pending subject; the whole demand is conserved; and every grant obeys the
per-subject cap unless, at its moment, exactly one subject still had
positive remaining demand. -/
theorem greedyLoop_ok_spec (hc : HallConfig) (day slot : Nat) :
    ∀ (halls : List Hall) (rem : List (String × Nat))
      (res : List HallAssignment),
      greedyLoop hc day slot halls rem = .ok res →
      (rem.map (·.1)).Nodup →
      (∀ A ∈ res, A.day = day ∧ A.slot = slot ∧ A.allocations ≠ [] ∧
        ∃ h ∈ halls, A.hall_name = h.name ∧
          sumCounts A.allocations ≤ h.capacity) ∧
      (res.map (·.hall_name)).Sublist (halls.map (·.name)) ∧
      (∀ e ∈ res.flatMap (·.allocations), 0 < e.2 ∧
        e.1 ∈ rem.map (·.1)) ∧
      (∀ t, keySum (res.flatMap (·.allocations)) t = keySum rem t) ∧
      (∀ d1 e d2, res.flatMap (·.allocations) = d1 ++ e :: d2 →
        e.2 + keySum d1 e.1 ≤ keySum rem e.1 ∧
        (e.2 ≤ hc.per_subject_limit ∨
          ((decrList rem d1).filter
            (fun p => decide (0 < p.2))).length = 1)) := by
  intro halls
  induction halls with
  | nil =>
    intro rem res h hrnd
    simp only [greedyLoop] at h
    split at h
    · rename_i hz
      have hres : res = [] := by simpa using (Except.ok.inj h).symm
      subst hres
      refine ⟨by simp, by simp, by simp, ?_, ?_⟩
      · intro t
        rw [keySum_all_zero hz t]
        rfl
      · intro d1 e d2 hdec
        exact absurd hdec (by simp)
    · exact absurd h (by simp)
  | cons hall rest ih =>
    intro rem res h hrnd
    simp only [greedyLoop] at h
    split at h
    · rename_i hz
      have hres : res = [] := by simpa using (Except.ok.inj h).symm
      subst hres
      refine ⟨by simp, by simp, by simp, ?_, ?_⟩
      · intro t
        rw [keySum_all_zero hz t]
        rfl
      · intro d1 e d2 hdec
        exact absurd hdec (by simp)
    · have hperm : (stableSortDescBy (fun e => e.2)
          (rem.filter (fun e => decide (0 < e.2)))).Perm
          (rem.filter (fun e => decide (0 < e.2))) :=
        stableSortDescBy_perm _ _
      have hsnap : ∀ e ∈ stableSortDescBy (fun e => e.2)
          (rem.filter (fun e => decide (0 < e.2))),
          keySum rem e.1 = e.2 := by
        intro e he
        exact keySum_entry hrnd
          (List.mem_of_mem_filter (hperm.mem_iff.mp he))
      have hsnd : ((stableSortDescBy (fun e => e.2)
          (rem.filter (fun e => decide (0 < e.2)))).map (·.1)).Nodup := by
        rw [List.Perm.nodup_iff (hperm.map (·.1))]
        exact List.Nodup.sublist
          ((List.filter_sublist rem).map (·.1)) hrnd
      obtain ⟨d, hd1, hd2, hd3, hd4, hd5, hd6⟩ :=
        fillHall_spec hc.per_subject_limit hall.capacity
          (stableSortDescBy (fun e => e.2)
            (rem.filter (fun e => decide (0 < e.2)))) rem 0 []
          hsnap hsnd hrnd
      rw [List.nil_append] at hd1
      split at h
      · rename_i tail heq
        have hrnd2 : (((fillHall hc.per_subject_limit hall.capacity
            (stableSortDescBy (fun e => e.2)
              (rem.filter (fun e => decide (0 < e.2)))) rem 0
            []).2).map (·.1)).Nodup := by
          rw [hd2, decrList_keys]
          exact hrnd
        obtain ⟨ihc1, ihc2, ihc3, ihc4, ihc5⟩ :=
          ih _ tail heq hrnd2
        have hres : res = if (fillHall hc.per_subject_limit hall.capacity
            (stableSortDescBy (fun e => e.2)
              (rem.filter (fun e => decide (0 < e.2)))) rem 0
            []).1.isEmpty then tail
          else ⟨hall.name, day, slot, (fillHall hc.per_subject_limit
            hall.capacity (stableSortDescBy (fun e => e.2)
              (rem.filter (fun e => decide (0 < e.2)))) rem 0 []).1⟩ ::
            tail := (Except.ok.inj h).symm
        rw [hd1] at hres
        have hstream : res.flatMap (·.allocations) =
            d ++ tail.flatMap (·.allocations) := by
          rw [hres]
          by_cases hde : d.isEmpty
          · rw [if_pos hde]
            rw [List.isEmpty_iff] at hde
            subst hde
            simp
          · rw [if_neg hde]
            simp
        have hkeys : ∀ e ∈ d, 0 < e.2 ∧ e.1 ∈ rem.map (·.1) := by
          intro e he
          obtain ⟨hp, hk⟩ := hd4 e he
          refine ⟨hp, ?_⟩
          rcases List.mem_map.mp ((hperm.map (·.1)).mem_iff.mp hk) with
            ⟨e0, he0, hk0⟩
          exact hk0 ▸ List.mem_map_of_mem (·.1)
            (List.mem_of_mem_filter he0)
        have hrem2 : ∀ t, keySum ((fillHall hc.per_subject_limit
            hall.capacity (stableSortDescBy (fun e => e.2)
              (rem.filter (fun e => decide (0 < e.2)))) rem 0 []).2) t =
            keySum rem t - keySum d t := by
          intro t
          rw [hd2]
          exact keySum_decrList hrnd d t
        refine ⟨?_, ?_, ?_, ?_, ?_⟩
        · intro A hA
          rw [hres] at hA
          by_cases hde : d.isEmpty
          · rw [if_pos hde] at hA
            obtain ⟨h1, h2, h3, hh, hhm, hhn⟩ := ihc1 A hA
            exact ⟨h1, h2, h3, hh, List.mem_cons_of_mem _ hhm, hhn⟩
          · rw [if_neg hde] at hA
            rcases List.mem_cons.mp hA with rfl | hA'
            · refine ⟨rfl, rfl, by simpa using hde, hall,
                List.mem_cons_self _ _, rfl, ?_⟩
              simpa using hd3 (Nat.zero_le _)
            · obtain ⟨h1, h2, h3, hh, hhm, hhn⟩ := ihc1 A hA'
              exact ⟨h1, h2, h3, hh, List.mem_cons_of_mem _ hhm, hhn⟩
        · rw [hres]
          by_cases hde : d.isEmpty
          · rw [if_pos hde]
            exact ihc2.cons _
          · rw [if_neg hde]
            simpa using ihc2.cons₂ hall.name
        · intro e he
          rw [hstream] at he
          rcases List.mem_append.mp he with he' | he'
          · exact hkeys e he'
          · obtain ⟨hp, hk⟩ := ihc3 e he'
            rw [hd2, decrList_keys] at hk
            exact ⟨hp, hk⟩
        · intro t
          rw [hstream, keySum_append, ihc4 t, hrem2 t]
          have := hd5 t
          omega
        · intro d1 e d2 hdec
          rw [hstream] at hdec
          rcases List.append_eq_append_iff.mp hdec.symm with
            ⟨a', ha1, ha2⟩ | ⟨c', hc1, hc2⟩
          · rcases a' with _ | ⟨ah, at'⟩
            · rw [List.append_nil] at ha1
              obtain ⟨hb1, hb2⟩ := ihc5 [] e d2 (by
                rw [List.nil_append] at ha2 ⊢
                exact ha2.symm)
              rw [hd2, keySum_decrList hrnd] at hb1
              have hub := hd5 e.1
              rw [show keySum ([] : List (String × Nat)) e.1 = 0 from
                rfl] at hb1
              rw [← ha1]
              constructor
              · omega
              · rcases hb2 with hl | hr
                · exact Or.inl hl
                · refine Or.inr ?_
                  rw [hd2] at hr
                  rw [show decrList (decrList rem d)
                      ([] : List (String × Nat)) = decrList rem d from
                    rfl] at hr
                  exact hr
            · rw [List.cons_append] at ha2
              injection ha2 with h1 h2
              subst h1
              obtain ⟨hb1, _, hb3⟩ := hd6 d1 e at' ha1
              exact ⟨hb1, hb3⟩
          · obtain ⟨hb1, hb2⟩ := ihc5 c' e d2 hc2
            rw [hd2, keySum_decrList hrnd] at hb1
            have hub := hd5 e.1
            rw [hc1, keySum_append]
            constructor
            · omega
            · rcases hb2 with hl | hr
              · exact Or.inl hl
              · refine Or.inr ?_
                rw [hd2, ← decrList_append] at hr
                exact hr
      · exact absurd h (by simp)

theorem decrList_eq_map (l : List (String × Nat)) :
    ∀ rem : List (String × Nat),
      decrList rem l = rem.map (fun p => (p.1, p.2 - keySum l p.1)) := by
  induction l with
  | nil =>
    intro rem
    show rem = rem.map (fun p => (p.1, p.2 - keySum [] p.1))
    exact (List.map_id' rem).symm
  | cons e l ih =>
    intro rem
    rw [show decrList rem (e :: l) = decrList (decr rem e.1 e.2) l from rfl,
      ih, decr, List.map_map]
    apply List.map_congr_left
    intro p _
    show (fun p => (p.1, p.2 - keySum l p.1))
        (if (p.1 == e.1) = true then (p.1, p.2 - e.2) else p) =
      (p.1, p.2 - keySum (e :: l) p.1)
    rw [keySum_cons]
    by_cases hp : (p.1 == e.1) = true
    · have : (e.1 == p.1) = true := by
        rw [beq_iff_eq] at hp ⊢
        exact hp.symm
      simp only [if_pos hp, if_pos this]
      show (p.1, p.2 - e.2 - keySum l p.1) = _
      rw [Nat.sub_sub]
    · have : (e.1 == p.1) = false := by
        rw [beq_eq_false_iff_ne]
        rw [beq_iff_eq] at hp
        exact fun hc => hp hc.symm
      simp only [if_neg hp, this]
      show (p.1, p.2 - keySum l p.1) = (p.1, p.2 - (0 + keySum l p.1))
      rw [Nat.zero_add]

theorem inner_fold_keys (g : StudentGroup) (sis : List String) :
    ∀ (acc : List (String × Nat)),
      ∀ t ∈ ((sis.foldl (fun acc2 s =>
        if g.subjects.contains s then bump acc2 s g.size else acc2)
          acc).map (·.1)),
        t ∈ acc.map (·.1) ∨ t ∈ sis := by
  induction sis with
  | nil =>
    intro acc t ht
    exact Or.inl ht
  | cons u rest ih =>
    intro acc t ht
    rw [List.foldl_cons] at ht
    by_cases hu : g.subjects.contains u = true
    · rw [if_pos hu] at ht
      rcases ih (bump acc u g.size) t ht with hin | hin
      · rw [bump_keys] at hin
        split at hin
        · exact Or.inl hin
        · rcases List.mem_append.mp hin with hin' | hin'
          · exact Or.inl hin'
          · rw [List.mem_singleton] at hin'
            exact Or.inr (hin' ▸ List.mem_cons_self _ _)
      · exact Or.inr (List.mem_cons_of_mem _ hin)
    · rw [if_neg hu] at ht
      rcases ih acc t ht with hin | hin
      · exact Or.inl hin
      · exact Or.inr (List.mem_cons_of_mem _ hin)

theorem subject_students_keys (groups : List StudentGroup)
    (sis : List String) :
    ∀ t ∈ (subject_students groups sis).map (·.1), t ∈ sis := by
  suffices hgen : ∀ acc : List (String × Nat),
      ∀ t ∈ ((groups.foldl (fun acc g =>
        sis.foldl (fun acc2 s =>
          if g.subjects.contains s then bump acc2 s g.size else acc2) acc)
        acc).map (·.1)),
        t ∈ acc.map (·.1) ∨ t ∈ sis by
    intro t ht
    rcases hgen [] t ht with hin | hin
    · cases hin
    · exact hin
  induction groups with
  | nil =>
    intro acc t ht
    exact Or.inl ht
  | cons g gs ih =>
    intro acc t ht
    rw [List.foldl_cons] at ht
    rcases ih _ t ht with hin | hin
    · exact inner_fold_keys g sis acc t hin
    · exact Or.inr hin

/-- For a single-subject slot, the demand map is empty (no group enrolls the
subject) or the single entry (subject, its demand). -/
theorem subject_students_single (groups : List StudentGroup) (m : String) :
    subject_students groups [m] = [] ∨
      subject_students groups [m] = [(m, demandOf groups m)] := by
  rcases hss : subject_students groups [m] with _ | ⟨e, l⟩
  · exact Or.inl rfl
  · refine Or.inr ?_
    have hkeys := subject_students_keys groups [m]
    rw [hss] at hkeys
    have hnd := subject_students_nodup groups [m]
    rw [hss] at hnd
    have he1 : e.1 = m := by
      have := hkeys e.1 (by simp)
      simpa using this
    have hl : l = [] := by
      rcases l with _ | ⟨e2, l2⟩
      · rfl
      · exfalso
        have h2 : e2.1 = m := by
          have := hkeys e2.1 (by simp)
          simpa using this
        simp only [List.map_cons, List.nodup_cons] at hnd
        exact hnd.1 (by simp [he1, h2])
    subst hl
    have hv : keySum [e] m = demandOf groups m := by
      rw [← hss, subject_students_keySum (by simp) m]
      simp
    rw [keySum_cons] at hv
    have : (e.1 == m) = true := by simpa using he1
    rw [if_pos this] at hv
    rw [show keySum ([] : List (String × Nat)) m = 0 from rfl] at hv
    have he2 : e.2 = demandOf groups m := by omega
    rw [show e = (e.1, e.2) from rfl, he1, he2]

theorem mem_allSlotPairs {days spd : Nat} {p : Nat × Nat} :
    p ∈ allSlotPairs days spd ↔ p.1 < days ∧ p.2 < spd := by
  obtain ⟨a, b⟩ := p
  simp only [allSlotPairs, List.mem_flatMap, List.mem_map, List.mem_range]
  constructor
  · rintro ⟨d, hd, sl, hsl, heq⟩
    obtain ⟨rfl, rfl⟩ := Prod.mk.injEq .. ▸ heq
    exact ⟨hd, hsl⟩
  · rintro ⟨ha, hb⟩
    exact ⟨a, ha, b, hb, rfl⟩

theorem allSlotPairs_pairwise (days spd : Nat) :
    (allSlotPairs days spd).Pairwise
      (fun p q => p.1 < q.1 ∨ (p.1 = q.1 ∧ p.2 < q.2)) := by
  apply List.pairwise_flatMap.mpr
  refine ⟨?_, ?_⟩
  · intro d _
    apply List.pairwise_map.mpr
    have := List.pairwise_lt_range spd
    exact this.imp (fun hab => Or.inr ⟨rfl, hab⟩)
  · have := List.pairwise_lt_range days
    apply List.Pairwise.imp ?_ this
    intro a b hab p hp q hq
    rcases List.mem_map.mp hp with ⟨x, _, rfl⟩
    rcases List.mem_map.mp hq with ⟨y, _, rfl⟩
    exact Or.inl hab

theorem allSlotPairs_nodup (days spd : Nat) :
    (allSlotPairs days spd).Nodup := by
  have := allSlotPairs_pairwise days spd
  apply List.Pairwise.imp ?_ this
  intro a b hab
  intro hc
  subst hc
  rcases hab with h | ⟨_, h⟩ <;> omega

/-- Everything a successful _allocate_slot run guarantees, phrased on the
slot's demand map subject_students. -/
theorem allocate_slot_ok_spec {tt : TimetableResult} {hc : HallConfig}
    {day slot : Nat} {a : List HallAssignment}
    (h : allocate_slot tt hc day slot = .ok a) :
    (∀ A ∈ a, A.day = day ∧ A.slot = slot ∧ A.allocations ≠ [] ∧
      ∃ hall ∈ hc.halls, A.hall_name = hall.name ∧
        sumCounts A.allocations ≤ hall.capacity) ∧
    (a.map (·.hall_name)).Sublist
      ((stableSortDescBy Hall.capacity hc.halls).map (·.name)) ∧
    (∀ e ∈ a.flatMap (·.allocations), 0 < e.2 ∧
      e.1 ∈ (subject_students tt.config.groups
        (slotSubjects tt day slot)).map (·.1)) ∧
    (∀ t, keySum (a.flatMap (·.allocations)) t =
      keySum (subject_students tt.config.groups
        (slotSubjects tt day slot)) t) ∧
    (∀ d1 e d2, a.flatMap (·.allocations) = d1 ++ e :: d2 →
      e.2 + keySum d1 e.1 ≤ keySum (subject_students tt.config.groups
        (slotSubjects tt day slot)) e.1 ∧
      (e.2 ≤ hc.per_subject_limit ∨
        ((decrList (subject_students tt.config.groups
          (slotSubjects tt day slot)) d1).filter
            (fun p => decide (0 < p.2))).length = 1)) := by
  simp only [allocate_slot] at h
  split at h
  · rename_i hse
    have ha : a = [] := by simpa using (Except.ok.inj h).symm
    subst ha
    have hsis : slotSubjects tt day slot = [] := by
      simpa using hse
    refine ⟨by simp, by simp, by simp, ?_, ?_⟩
    · intro t
      rw [hsis, subject_students_keySum List.nodup_nil t]
      simp [keySum]
    · intro d1 e d2 hdec
      exact absurd hdec (by simp)
  · have hgl : greedyLoop hc day slot
        (stableSortDescBy Hall.capacity hc.halls)
        (subject_students tt.config.groups
          (slotSubjects tt day slot)) = .ok a := h
    obtain ⟨c1, c2, c3, c4, c5⟩ := greedyLoop_ok_spec hc day slot
      (stableSortDescBy Hall.capacity hc.halls)
      (subject_students tt.config.groups (slotSubjects tt day slot)) a
      hgl (subject_students_nodup _ _)
    refine ⟨?_, c2, c3, c4, c5⟩
    intro A hA
    obtain ⟨h1, h2, h3, hall, hm, hn, hcap⟩ := c1 A hA
    exact ⟨h1, h2, h3, hall,
      (stableSortDescBy_perm Hall.capacity hc.halls).mem_iff.mp hm,
      hn, hcap⟩

/-- Composition of the per-slot allocations over the day-major cell walk. -/
theorem allocate_halls_go_ok (tt : TimetableResult) (hc : HallConfig) :
    ∀ (pairs : List (Nat × Nat)) (res : List HallAssignment),
      allocate_halls_go tt hc pairs = .ok res →
      (∀ A ∈ res, (A.day, A.slot) ∈ pairs) ∧
      (pairs.Nodup →
        ∀ p ∈ pairs, ∃ a, allocate_slot tt hc p.1 p.2 = .ok a ∧
          res.filter (fun A => A.day == p.1 && A.slot == p.2) = a) ∧
      (pairs.Pairwise (fun p q => p.1 < q.1 ∨ (p.1 = q.1 ∧ p.2 < q.2)) →
        (res.map (fun A => (A.day, A.slot))).Pairwise
          (fun p q => p.1 < q.1 ∨ (p.1 = q.1 ∧ p.2 ≤ q.2))) := by
  intro pairs
  induction pairs with
  | nil =>
    intro res h
    simp only [allocate_halls_go] at h
    have hres : res = [] := (Except.ok.inj h).symm
    subst hres
    exact ⟨by simp, by simp, by simp⟩
  | cons hd rest ih =>
    obtain ⟨d, sl⟩ := hd
    intro res h
    simp only [allocate_halls_go] at h
    split at h
    · rename_i a ha
      split at h
      · rename_i r hr
        have hres : res = a ++ r := (Except.ok.inj h).symm
        subst hres
        obtain ⟨ih1, ih2, ih3⟩ := ih r hr
        have hlab : ∀ A ∈ a, A.day = d ∧ A.slot = sl := by
          intro A hA
          obtain ⟨h1, h2, _⟩ := (allocate_slot_ok_spec ha).1 A hA
          exact ⟨h1, h2⟩
        refine ⟨?_, ?_, ?_⟩
        · intro A hA
          rcases List.mem_append.mp hA with hA' | hA'
          · obtain ⟨h1, h2⟩ := hlab A hA'
            rw [h1, h2]
            exact List.mem_cons_self _ _
          · exact List.mem_cons_of_mem _ (ih1 A hA')
        · intro hndp p hp
          rw [List.nodup_cons] at hndp
          rcases List.mem_cons.mp hp with rfl | hp'
          · refine ⟨a, ha, ?_⟩
            rw [List.filter_append]
            have hfa : a.filter
                (fun A => A.day == d && A.slot == sl) = a := by
              apply List.filter_eq_self.mpr
              intro A hA
              obtain ⟨h1, h2⟩ := hlab A hA
              simp [h1, h2]
            have hfr : r.filter
                (fun A => A.day == d && A.slot == sl) = [] := by
              apply List.filter_eq_nil_iff.mpr
              intro A hA
              have := ih1 A hA
              intro hcond
              rw [Bool.and_eq_true, beq_iff_eq, beq_iff_eq] at hcond
              rw [hcond.1, hcond.2] at this
              exact hndp.1 this
            rw [hfa, hfr, List.append_nil]
          · obtain ⟨a2, ha2, hf2⟩ := ih2 hndp.2 p hp'
            refine ⟨a2, ha2, ?_⟩
            rw [List.filter_append]
            have hfa : a.filter
                (fun A => A.day == p.1 && A.slot == p.2) = [] := by
              apply List.filter_eq_nil_iff.mpr
              intro A hA
              obtain ⟨h1, h2⟩ := hlab A hA
              intro hcond
              rw [Bool.and_eq_true, beq_iff_eq, beq_iff_eq] at hcond
              apply hndp.1
              have hpd : p = (d, sl) := by
                obtain ⟨p1, p2⟩ := p
                rw [Prod.mk.injEq]
                constructor <;> omega
              rw [← hpd]
              exact hp'
            rw [hfa, hf2, List.nil_append]
        · intro hpw
          rw [List.pairwise_cons] at hpw
          rw [List.map_append, List.pairwise_append]
          refine ⟨?_, ih3 hpw.2, ?_⟩
          · apply List.pairwise_map.mpr
            apply List.pairwise_of_forall_mem_list
            intro A hA B hB
            obtain ⟨h1, h2⟩ := hlab A hA
            obtain ⟨h3, h4⟩ := hlab B hB
            rw [h1, h2, h3, h4]
            exact Or.inr ⟨rfl, le_refl _⟩
          · intro p hp q hq
            rcases List.mem_map.mp hp with ⟨A, hA, rfl⟩
            rcases List.mem_map.mp hq with ⟨B, hB, rfl⟩
            obtain ⟨h1, h2⟩ := hlab A hA
            have hBq := ih1 B hB
            have := hpw.1 _ hBq
            rw [h1, h2]
            rcases this with hlt | ⟨heq, hlt⟩
            · exact Or.inl hlt
            · exact Or.inr ⟨heq, le_of_lt hlt⟩
      · exact absurd h (by simp)
    · exact absurd h (by simp)

theorem allocate_halls_slot {tt : TimetableResult} {hc : HallConfig}
    {res : List HallAssignment} (h : allocate_halls tt hc = .ok res)
    {day slot : Nat} (hd : day < tt.config.days)
    (hsl : slot < tt.config.slots_per_day) :
    ∃ a, allocate_slot tt hc day slot = .ok a ∧
      res.filter (fun A => A.day == day && A.slot == slot) = a := by
  obtain ⟨_, h2, _⟩ := allocate_halls_go_ok tt hc _ res h
  exact h2 (allSlotPairs_nodup _ _) (day, slot)
    (mem_allSlotPairs.mpr ⟨hd, hsl⟩)

/-- C3: on every successful allocate_halls run, for every occupied in-range
slot with distinct scheduled subjects, the total seats granted to a subject
across the slot's hall assignments equal that subject's demand - the sum of
group sizes over groups enrolled in it. -/
theorem claim3_demand_conservation (tt : TimetableResult) (hc : HallConfig)
    (res : List HallAssignment) (day slot : Nat) (s : String)
    (h : allocate_halls tt hc = .ok res)
    (hd : day < tt.config.days) (hsl : slot < tt.config.slots_per_day)
    (hnd : (slotSubjects tt day slot).Nodup)
    (hs : s ∈ slotSubjects tt day slot) :
    keySum (slotStream res day slot) s = demandOf tt.config.groups s := by
  obtain ⟨a, ha, hf⟩ := allocate_halls_slot h hd hsl
  have hstream : slotStream res day slot = a.flatMap (·.allocations) := by
    rw [slotStream, hf]
  rw [hstream, (allocate_slot_ok_spec ha).2.2.2.1 s,
    subject_students_keySum hnd s, if_pos (by simpa using hs)]

/-- C4: in every successful allocate_halls run, a seat grant above
per_subject_limit can only be the grant made when, at its moment (after the
earlier grants of the slot), exactly one subject of the slot still had
positive remaining demand - and even then it never exceeds that remaining
demand. -/
theorem claim4_per_subject_cap (tt : TimetableResult) (hc : HallConfig)
    (res : List HallAssignment) (day slot : Nat)
    (h : allocate_halls tt hc = .ok res)
    (hd : day < tt.config.days) (hsl : slot < tt.config.slots_per_day)
    (hnd : (slotSubjects tt day slot).Nodup) :
    ∀ d1 e d2, slotStream res day slot = d1 ++ e :: d2 →
      e.2 ≤ hc.per_subject_limit ∨
      (e.2 + keySum d1 e.1 ≤ demandOf tt.config.groups e.1 ∧
        (((subject_students tt.config.groups
          (slotSubjects tt day slot)).map
            (fun p => (p.1, p.2 - keySum d1 p.1))).filter
          (fun p => decide (0 < p.2))).length = 1) := by
  intro d1 e d2 hdec
  obtain ⟨a, ha, hf⟩ := allocate_halls_slot h hd hsl
  rw [slotStream, hf] at hdec
  obtain ⟨hb1, hb2⟩ := (allocate_slot_ok_spec ha).2.2.2.2 d1 e d2 hdec
  rcases hb2 with hl | hr
  · exact Or.inl hl
  · refine Or.inr ⟨?_, ?_⟩
    · rw [subject_students_keySum hnd e.1] at hb1
      split at hb1
      · omega
      · omega
    · rw [← decrList_eq_map]
      exact hr

/-- C5: in every successful allocate_halls run, each hall assignment's seat
counts sum to at most the capacity of the named hall, and every recorded
count is strictly positive. -/
theorem claim5_hall_capacity_positive (tt : TimetableResult)
    (hc : HallConfig) (res : List HallAssignment)
    (h : allocate_halls tt hc = .ok res) :
    ∀ A ∈ res, (∃ hall ∈ hc.halls, A.hall_name = hall.name ∧
      sumCounts A.allocations ≤ hall.capacity) ∧
    ∀ e ∈ A.allocations, 0 < e.2 := by
  intro A hA
  obtain ⟨h1, h2, _⟩ := allocate_halls_go_ok tt hc _ res h
  obtain ⟨a, ha, hf⟩ := h2 (allSlotPairs_nodup _ _) _ (h1 A hA)
  have hAa : A ∈ a := by
    rw [← hf]
    exact List.mem_filter.mpr ⟨hA, by simp⟩
  obtain ⟨_, _, _, hall, hm, hn, hcap⟩ := (allocate_slot_ok_spec ha).1 A hAa
  refine ⟨⟨hall, hm, hn, hcap⟩, ?_⟩
  intro e he
  exact ((allocate_slot_ok_spec ha).2.2.1 e
    (List.mem_flatMap.mpr ⟨A, hAa, he⟩)).1

/-- C10: every successful allocate_halls run lists assignments grouped by
slot in ascending day-major order; within one slot the halls appear as a
subsequence of the capacity-descending (stable) hall order; and no empty
assignment is ever recorded. -/
theorem claim10_output_order (tt : TimetableResult) (hc : HallConfig)
    (res : List HallAssignment) (h : allocate_halls tt hc = .ok res) :
    (res.map (fun A => (A.day, A.slot))).Pairwise
      (fun p q => p.1 < q.1 ∨ (p.1 = q.1 ∧ p.2 ≤ q.2)) ∧
    (∀ day slot, ((res.filter
        (fun A => A.day == day && A.slot == slot)).map
        (·.hall_name)).Sublist
      ((stableSortDescBy Hall.capacity hc.halls).map (·.name))) ∧
    (stableSortDescBy Hall.capacity hc.halls).Pairwise
      (fun h1 h2 => h2.capacity ≤ h1.capacity) ∧
    (∀ c : Nat, (stableSortDescBy Hall.capacity hc.halls).filter
        (fun hl => hl.capacity == c) =
      hc.halls.filter (fun hl => hl.capacity == c)) ∧
    ∀ A ∈ res, A.allocations ≠ [] := by
  obtain ⟨h1, h2, h3⟩ := allocate_halls_go_ok tt hc _ res h
  refine ⟨h3 (allSlotPairs_pairwise _ _), ?_,
    stableSortDescBy_pairwise _ _,
    fun c => stableSortDescBy_filter _ c _, ?_⟩
  · intro day slot
    by_cases hin : (day, slot) ∈
        allSlotPairs tt.config.days tt.config.slots_per_day
    · obtain ⟨a, ha, hf⟩ := h2 (allSlotPairs_nodup _ _) _ hin
      rw [hf]
      exact (allocate_slot_ok_spec ha).2.1
    · have hnil : res.filter
          (fun A => A.day == day && A.slot == slot) = [] := by
        apply List.filter_eq_nil_iff.mpr
        intro A hA hcond
        rw [Bool.and_eq_true, beq_iff_eq, beq_iff_eq] at hcond
        apply hin
        rw [← hcond.1, ← hcond.2]
        exact h1 A hA
      rw [hnil]
      exact List.nil_sublist _
  · intro A hA
    obtain ⟨a, ha, hf⟩ := h2 (allSlotPairs_nodup _ _) _ (h1 A hA)
    have hAa : A ∈ a := by
      rw [← hf]
      exact List.mem_filter.mpr ⟨hA, by simp⟩
    exact ((allocate_slot_ok_spec ha).1 A hAa).2.2.1

/-- Hall configuration used by the allocator witnesses. -/
def hcS1 : HallConfig := ⟨[⟨"H1", 20⟩], 30⟩

/-- The allocation allocate_halls produces for ttS1 and hcS1. -/
def resS1 : List HallAssignment :=
  [⟨"H1", 0, 0, [("M", 10)]⟩, ⟨"H1", 0, 1, [("E", 10)]⟩]

theorem claim3_witness :
    keySum (slotStream resS1 0 0) "M" = demandOf cfgS1.groups "M" :=
  claim3_demand_conservation ttS1 hcS1 resS1 0 0 "M" rfl
    (by decide) (by decide) (by decide) (by decide)

theorem claim4_witness :
    ("M", (10 : Nat)).2 ≤ hcS1.per_subject_limit ∨
    (("M", (10 : Nat)).2 + keySum [] ("M", (10 : Nat)).1 ≤
        demandOf ttS1.config.groups ("M", (10 : Nat)).1 ∧
      (((subject_students ttS1.config.groups
        (slotSubjects ttS1 0 0)).map
          (fun p => (p.1, p.2 - keySum [] p.1))).filter
        (fun p => decide (0 < p.2))).length = 1) :=
  claim4_per_subject_cap ttS1 hcS1 resS1 0 0 rfl (by decide) (by decide)
    (by decide) [] ("M", 10) [] rfl

theorem claim5_witness :
    (∃ hall ∈ hcS1.halls,
      HallAssignment.hall_name ⟨"H1", 0, 0, [("M", 10)]⟩ = hall.name ∧
      sumCounts (HallAssignment.allocations ⟨"H1", 0, 0, [("M", 10)]⟩) ≤
        hall.capacity) ∧
    ∀ e ∈ HallAssignment.allocations ⟨"H1", 0, 0, [("M", 10)]⟩,
      0 < e.2 :=
  claim5_hall_capacity_positive ttS1 hcS1 resS1 rfl
    ⟨"H1", 0, 0, [("M", 10)]⟩ (by decide)

theorem claim10_witness :
    (resS1.map (fun A => (A.day, A.slot))).Pairwise
      (fun p q => p.1 < q.1 ∨ (p.1 = q.1 ∧ p.2 ≤ q.2)) ∧
    ∀ A ∈ resS1, A.allocations ≠ [] := by
  have H := claim10_output_order ttS1 hcS1 resS1 rfl
  exact ⟨H.1, H.2.2.2.2⟩

/-! Per-slot behaviour on valid (slot-injective) timetables: each slot holds
at most one subject, so the single-subject exception governs the whole slot
and a capacity shortage surfaces with the exact deficit. -/

theorem sortedHalls_capacity_sum (hc : HallConfig) :
    ((stableSortDescBy Hall.capacity hc.halls).map (·.capacity)).sum =
      hc.total_capacity :=
  ((stableSortDescBy_perm Hall.capacity hc.halls).map (·.capacity)).sum_eq

theorem greedyLoop_all_zero {hc : HallConfig} {day slot : Nat}
    {halls : List Hall} {rem : List (String × Nat)}
    (hz : rem.all (fun e => e.2 == 0) = true) :
    greedyLoop hc day slot halls rem = .ok [] := by
  cases halls with
  | nil =>
    simp only [greedyLoop]
    rw [if_pos hz]
  | cons hall rest =>
    simp only [greedyLoop]
    rw [if_pos hz]

theorem greedyLoop_nil_err {hc : HallConfig} {day slot : Nat}
    {rem : List (String × Nat)}
    (hnz : ¬ rem.all (fun e => e.2 == 0) = true) :
    greedyLoop hc day slot [] rem =
      .error (.insufficientHallCapacityError
        ("Insufficient hall capacity for slot Day " ++ toString (day + 1)
          ++ ", Slot " ++ toString (slot + 1))
        ((rem.map (·.2)).sum) hc.total_capacity rem) := by
  simp only [greedyLoop]
  rw [if_neg hnz]

theorem greedyLoop_cons (hc : HallConfig) (day slot : Nat) (hall : Hall)
    (rest : List Hall) (rem : List (String × Nat))
    (hnz : ¬ rem.all (fun e => e.2 == 0) = true) :
    greedyLoop hc day slot (hall :: rest) rem =
      match greedyLoop hc day slot rest
        (fillHall hc.per_subject_limit hall.capacity
          (stableSortDescBy (fun e => e.2)
            (rem.filter (fun e => decide (0 < e.2)))) rem 0 []).2 with
      | .ok tail =>
        .ok (if (fillHall hc.per_subject_limit hall.capacity
            (stableSortDescBy (fun e => e.2)
              (rem.filter (fun e => decide (0 < e.2)))) rem 0
            []).1.isEmpty then tail
          else ⟨hall.name, day, slot,
            (fillHall hc.per_subject_limit hall.capacity
              (stableSortDescBy (fun e => e.2)
                (rem.filter (fun e => decide (0 < e.2)))) rem 0
              []).1⟩ :: tail)
      | .error e => .error e := by
  simp only [greedyLoop]
  rw [if_neg hnz]

theorem snap_single {m : String} {c : Nat} (hc0 : 0 < c) :
    stableSortDescBy (fun e => e.2)
      ([(m, c)].filter (fun e => decide (0 < e.2))) = [(m, c)] := by
  simp [hc0, stableSortDescBy, insertDescBy]

theorem single_not_all_zero {m : String} {c : Nat} (hc0 : 0 < c) :
    ¬ ([(m, c)].all (fun e => e.2 == 0)) = true := by
  simp
  omega

theorem fillHall_single (limit cap : Nat) (m : String) (c : Nat)
    (hc0 : 0 < c) (hcap : 0 < cap) :
    fillHall limit cap [(m, c)] [(m, c)] 0 [] =
      ([(m, min c cap)], [(m, c - min c cap)]) := by
  have hA : allocAmount limit cap [(m, c)] c 0 = min c cap := by
    rw [allocAmount, if_pos]
    · rw [Nat.sub_zero]
    · simp [hc0]
  rw [fillHall, if_neg (show ¬ cap ≤ 0 by omega), hA,
    if_pos (show 0 < min c cap by omega), fillHall]
  simp [decr]

theorem greedyLoop_single_ok (hc : HallConfig) (day slot : Nat) :
    ∀ (halls : List Hall) (m : String) (c : Nat),
      c ≤ (halls.map (·.capacity)).sum →
      ∃ res, greedyLoop hc day slot halls [(m, c)] = .ok res := by
  intro halls
  induction halls with
  | nil =>
    intro m c hle
    have hz : c = 0 := by simpa using hle
    subst hz
    exact ⟨[], greedyLoop_all_zero (by simp)⟩
  | cons hall rest ihh =>
    intro m c hle
    by_cases hc0 : c = 0
    · subst hc0
      exact ⟨[], greedyLoop_all_zero (by simp)⟩
    · have hc0' : 0 < c := Nat.pos_of_ne_zero hc0
      have hsum : ((hall :: rest).map (·.capacity)).sum =
          hall.capacity + (rest.map (·.capacity)).sum := by simp
      rw [greedyLoop_cons hc day slot hall rest [(m, c)]
        (single_not_all_zero hc0'), snap_single hc0']
      by_cases hcap : 0 < hall.capacity
      · rw [fillHall_single hc.per_subject_limit hall.capacity m c
          hc0' hcap]
        by_cases hcz : c - min c hall.capacity = 0
        · obtain ⟨tail, htail⟩ := ihh m (c - min c hall.capacity)
            (by omega)
          rw [htail]
          exact ⟨_, rfl⟩
        · obtain ⟨tail, htail⟩ := ihh m (c - min c hall.capacity)
            (by rw [hsum] at hle; omega)
          rw [htail]
          exact ⟨_, rfl⟩
      · have hfz : fillHall hc.per_subject_limit hall.capacity [(m, c)]
            [(m, c)] 0 [] = ([], [(m, c)]) := by
          rw [fillHall, if_pos (by omega)]
        rw [hfz]
        obtain ⟨tail, htail⟩ := ihh m c (by rw [hsum] at hle; omega)
        rw [htail]
        exact ⟨_, rfl⟩

theorem greedyLoop_single_err (hc : HallConfig) (day slot : Nat) :
    ∀ (halls : List Hall) (m : String) (c : Nat),
      (halls.map (·.capacity)).sum < c →
      greedyLoop hc day slot halls [(m, c)] =
        .error (.insufficientHallCapacityError
          ("Insufficient hall capacity for slot Day " ++
            toString (day + 1) ++ ", Slot " ++ toString (slot + 1))
          (c - (halls.map (·.capacity)).sum) hc.total_capacity
          [(m, c - (halls.map (·.capacity)).sum)]) := by
  intro halls
  induction halls with
  | nil =>
    intro m c hlt
    simp only [List.map_nil, List.sum_nil] at hlt
    rw [greedyLoop_nil_err (single_not_all_zero hlt)]
    simp
  | cons hall rest ihh =>
    intro m c hlt
    have hsum : ((hall :: rest).map (·.capacity)).sum =
        hall.capacity + (rest.map (·.capacity)).sum := by simp
    rw [hsum] at hlt
    have hc0 : 0 < c := by omega
    rw [greedyLoop_cons hc day slot hall rest [(m, c)]
      (single_not_all_zero hc0), snap_single hc0]
    by_cases hcap : 0 < hall.capacity
    · rw [fillHall_single hc.per_subject_limit hall.capacity m c hc0 hcap]
      have hmin : min c hall.capacity = hall.capacity := by omega
      rw [hmin, ihh m (c - hall.capacity) (by omega)]
      have h1 : c - hall.capacity - (rest.map (·.capacity)).sum =
          c - ((hall :: rest).map (·.capacity)).sum := by
        rw [hsum, Nat.sub_sub]
      rw [h1]
    · have hfz : fillHall hc.per_subject_limit hall.capacity [(m, c)]
          [(m, c)] 0 [] = ([], [(m, c)]) := by
        rw [fillHall, if_pos (by omega)]
      rw [hfz, ihh m c (by omega)]
      have h1 : c - (rest.map (·.capacity)).sum =
          c - ((hall :: rest).map (·.capacity)).sum := by
        rw [hsum]
        omega
      rw [h1]

theorem slotSubjects_len_le {tt : TimetableResult}
    (hpw : tt.assignments.Pairwise
      (fun a b => (a.day, a.slot) ≠ (b.day, b.slot))) :
    ∀ d sl, (slotSubjects tt d sl).length ≤ 1 := by
  intro d sl
  rw [slotSubjects, List.length_map]
  have hpw' := hpw.sublist
    (@List.filter_sublist ExamSlot
      (fun a => a.day == d && a.slot == sl) tt.assignments)
  rcases hfil : tt.assignments.filter
      (fun a => a.day == d && a.slot == sl) with _ | ⟨x, t⟩
  · simp [hfil]
  · rcases t with _ | ⟨y, t2⟩
    · simp [hfil]
    · exfalso
      rw [hfil] at hpw'
      have hxy := (List.pairwise_cons.mp hpw').1 y (by simp)
      have hx : x ∈ tt.assignments.filter
          (fun a => a.day == d && a.slot == sl) := by
        rw [hfil]
        simp
      have hy : y ∈ tt.assignments.filter
          (fun a => a.day == d && a.slot == sl) := by
        rw [hfil]
        simp
      have hxc := (List.mem_filter.mp hx).2
      have hyc := (List.mem_filter.mp hy).2
      rw [Bool.and_eq_true, beq_iff_eq, beq_iff_eq] at hxc hyc
      apply hxy
      rw [hxc.1, hxc.2, hyc.1, hyc.2]

theorem allocate_slot_le1_ok {tt : TimetableResult} {hc : HallConfig}
    {day slot : Nat} (hlen : (slotSubjects tt day slot).length ≤ 1)
    (hle : slotDemand tt day slot ≤ hc.total_capacity) :
    ∃ a, allocate_slot tt hc day slot = .ok a := by
  rcases hsis : slotSubjects tt day slot with _ | ⟨m, rest⟩
  · refine ⟨[], ?_⟩
    simp only [allocate_slot, hsis]
    rfl
  · have hrest : rest = [] := by
      rcases rest with _ | ⟨r2, t2⟩
      · rfl
      · rw [hsis] at hlen
        simp at hlen
    subst hrest
    simp only [allocate_slot, hsis]
    rw [if_neg (by simp)]
    rcases subject_students_single tt.config.groups m with hss | hss
    · rw [greedy_allocate, hss]
      exact ⟨[], greedyLoop_all_zero (by simp)⟩
    · rw [greedy_allocate, hss]
      have hdem : slotDemand tt day slot =
          demandOf tt.config.groups m := by
        rw [slotDemand, hsis]
        simp
      apply greedyLoop_single_ok
      rw [sortedHalls_capacity_sum]
      rw [hdem] at hle
      exact hle

theorem allocate_slot_le1_err {tt : TimetableResult} {hc : HallConfig}
    {day slot : Nat} (hlen : (slotSubjects tt day slot).length ≤ 1)
    (hgt : hc.total_capacity < slotDemand tt day slot) :
    ∃ m, slotSubjects tt day slot = [m] ∧
      allocate_slot tt hc day slot =
        .error (.insufficientHallCapacityError
          ("Insufficient hall capacity for slot Day " ++
            toString (day + 1) ++ ", Slot " ++ toString (slot + 1))
          (slotDemand tt day slot - hc.total_capacity) hc.total_capacity
          [(m, slotDemand tt day slot - hc.total_capacity)]) := by
  rcases hsis : slotSubjects tt day slot with _ | ⟨m, rest⟩
  · exfalso
    rw [slotDemand, hsis] at hgt
    simp at hgt
  · have hrest : rest = [] := by
      rcases rest with _ | ⟨r2, t2⟩
      · rfl
      · rw [hsis] at hlen
        simp at hlen
    subst hrest
    have hdem : slotDemand tt day slot = demandOf tt.config.groups m := by
      rw [slotDemand, hsis]
      simp
    rw [hdem] at hgt ⊢
    refine ⟨m, rfl, ?_⟩
    simp only [allocate_slot, hsis]
    rw [if_neg (by simp)]
    rcases subject_students_single tt.config.groups m with hss | hss
    · exfalso
      have := @subject_students_keySum tt.config.groups [m] (by simp) m
      rw [hss] at this
      rw [show keySum ([] : List (String × Nat)) m = 0 from rfl] at this
      rw [if_pos (by simp)] at this
      omega
    · rw [greedy_allocate, hss]
      have := greedyLoop_single_err hc day slot
        (stableSortDescBy Hall.capacity hc.halls) m
        (demandOf tt.config.groups m)
        (by rw [sortedHalls_capacity_sum]; exact hgt)
      rw [sortedHalls_capacity_sum] at this
      exact this

theorem allocate_halls_go_shortage (tt : TimetableResult)
    (hc : HallConfig)
    (hlen : ∀ d sl, (slotSubjects tt d sl).length ≤ 1) :
    ∀ pairs : List (Nat × Nat),
      (∃ p ∈ pairs, hc.total_capacity < slotDemand tt p.1 p.2) →
      ∃ d2 sl2 m, hc.total_capacity < slotDemand tt d2 sl2 ∧
        slotSubjects tt d2 sl2 = [m] ∧
        allocate_halls_go tt hc pairs =
          .error (.insufficientHallCapacityError
            ("Insufficient hall capacity for slot Day " ++
              toString (d2 + 1) ++ ", Slot " ++ toString (sl2 + 1))
            (slotDemand tt d2 sl2 - hc.total_capacity) hc.total_capacity
            [(m, slotDemand tt d2 sl2 - hc.total_capacity)]) := by
  intro pairs
  induction pairs with
  | nil =>
    rintro ⟨p, hp, _⟩
    cases hp
  | cons hd rest ihp =>
    obtain ⟨d, sl⟩ := hd
    rintro ⟨p, hp, hpd⟩
    by_cases hdef : hc.total_capacity < slotDemand tt d sl
    · obtain ⟨m, hm, herr⟩ := allocate_slot_le1_err (hlen d sl) hdef
      refine ⟨d, sl, m, hdef, hm, ?_⟩
      simp only [allocate_halls_go]
      rw [herr]
    · have hle : slotDemand tt d sl ≤ hc.total_capacity := by omega
      obtain ⟨a, ha⟩ := allocate_slot_le1_ok (hlen d sl) hle
      have hp' : p ∈ rest := by
        rcases List.mem_cons.mp hp with rfl | hp'
        · exact absurd hpd hdef
        · exact hp'
      obtain ⟨d2, sl2, m, hdef2, hm2, herr2⟩ := ihp ⟨p, hp', hpd⟩
      refine ⟨d2, sl2, m, hdef2, hm2, ?_⟩
      simp only [allocate_halls_go]
      rw [ha, herr2]

/-- C7: on a valid (slot-injective) timetable, whenever a slot's total
demand exceeds the sum of all hall capacities, allocate_halls fails with
InsufficientHallCapacityError at some such slot, and the remaining_students
diagnostic equals that slot's deficit (demand minus total capacity)
exactly. -/
theorem claim7_hall_shortage (tt : TimetableResult) (hc : HallConfig)
    (day slot : Nat)
    (hpw : tt.assignments.Pairwise
      (fun a b => (a.day, a.slot) ≠ (b.day, b.slot)))
    (hd : day < tt.config.days) (hsl : slot < tt.config.slots_per_day)
    (hshort : hc.total_capacity < slotDemand tt day slot) :
    ∃ d2 sl2 m, hc.total_capacity < slotDemand tt d2 sl2 ∧
      slotSubjects tt d2 sl2 = [m] ∧
      allocate_halls tt hc = .error (.insufficientHallCapacityError
        ("Insufficient hall capacity for slot Day " ++ toString (d2 + 1)
          ++ ", Slot " ++ toString (sl2 + 1))
        (slotDemand tt d2 sl2 - hc.total_capacity) hc.total_capacity
        [(m, slotDemand tt d2 sl2 - hc.total_capacity)]) :=
  allocate_halls_go_shortage tt hc (slotSubjects_len_le hpw) _
    ⟨(day, slot), mem_allSlotPairs.mpr ⟨hd, hsl⟩, hshort⟩

/-- Configuration of spec scenario S6: one subject of demand 40 (two groups
of 20), a single hall of capacity 30. -/
def cfgS6 : TimetableConfig :=
  ⟨1, 1, ["M"], [⟨"g1", ["M"], 20⟩, ⟨"g2", ["M"], 20⟩], none⟩

/-- A valid timetable for cfgS6. -/
def ttS6 : TimetableResult := ⟨[⟨0, 0, "M"⟩], cfgS6⟩

/-- Hall configuration of scenario S6. -/
def hcS6 : HallConfig := ⟨[⟨"H", 30⟩], 10⟩

theorem claim7_witness :
    ∃ d2 sl2 m, hcS6.total_capacity < slotDemand ttS6 d2 sl2 ∧
      slotSubjects ttS6 d2 sl2 = [m] ∧
      allocate_halls ttS6 hcS6 = .error (.insufficientHallCapacityError
        ("Insufficient hall capacity for slot Day " ++ toString (d2 + 1)
          ++ ", Slot " ++ toString (sl2 + 1))
        (slotDemand ttS6 d2 sl2 - hcS6.total_capacity)
        hcS6.total_capacity
        [(m, slotDemand ttS6 d2 sl2 - hcS6.total_capacity)]) :=
  claim7_hall_shortage ttS6 hcS6 0 0 (by simp [ttS6]) (by decide)
    (by decide) (by decide)

end Timetable
